import Mathlib

/-
  Verification of the circuitry simulator (Controller, Device contract, and
  the concrete devices Constant, Sequencer, Memory, Cpu).

  This file shallowly embeds the Rust source:
    * src/controller.rs   — Controller: add_device, add_connection, tick
    * src/device/debug/constant.rs, src/device/debug/sequencer.rs,
      src/device/memory.rs, src/device/cpu.rs — the concrete devices.

  Rust HashMaps keyed by identifiers are modelled as association lists with
  first-occurrence lookup and in-place overwriting insert; HashSets of port
  identifiers are modelled as lists used only through membership; petgraph's
  DiGraph is modelled as a node-weight list (node index = list position,
  add_node appends) plus an edge list.  Rust panics (expect / panic! /
  todo!) are modelled as explicit `panic` outcomes, distinguished by a tag
  naming the panic site, and kept separate from ordinary Err returns.

  petgraph's `Acyclic` wrapper iterates nodes in an implementation-defined
  topological order, so `Controller.tick` takes the visiting order as an
  explicit parameter; theorems quantify over all topological orders.
-/

namespace Circuitry

/-- Association-list lookup: first entry with the given key (models
`HashMap::get`). -/
def lookupA {κ β : Type} [DecidableEq κ] : List (κ × β) → κ → Option β
  | [], _ => none
  | (k', v) :: t, k => if k' = k then some v else lookupA t k

/-- Association-list insert with overwrite (models `HashMap::insert`):
replaces the first entry with the given key, else appends. -/
def insertA {κ β : Type} [DecidableEq κ] : List (κ × β) → κ → β → List (κ × β)
  | [], k, v => [(k, v)]
  | (k', v') :: t, k, v => if k' = k then (k, v) :: t else (k', v') :: insertA t k v

/-- `PortValue` from src/device.rs (`pub type PortValue = u32`); none of the
verified code performs arithmetic on port values, so overflow never arises
and `Nat` is a faithful carrier. -/
abbrev PortValue := Nat

/-- A port address `(device identifier, port identifier)`, the node weight
of the dependency graph. -/
abbrev PortKey := String × String

/-- The concrete devices of the repository (src/device/debug/constant.rs,
src/device/debug/sequencer.rs, src/device/memory.rs, src/device/cpu.rs).
`memory` carries `data` (the backing store) and `spec` (the
`specified_this_tick` map).  The Cpu's registers and instruction list are
omitted: every Cpu method that could read them is `todo!()` in the source,
so no behaviour depends on them. -/
inductive Dev : Type
  | constant (outPort : String) (value : PortValue)
  | sequencer (outPort : String) (values : List PortValue) (idx : Nat)
  | memory (data : List (PortValue × PortValue)) (spec : List (String × PortValue))
  | cpu
deriving DecidableEq

/-- Result of a device-trait call: `ok`, a `DeviceError` return, or a Rust
panic (`todo!()` in the Cpu). -/
inductive DRes (α : Type) : Type
  | ok (a : α)
  | err
  | panicked
deriving DecidableEq

/-- `get_input_ports` of each device. -/
def Dev.inputPorts : Dev → List String
  | .constant _ _ => []
  | .sequencer _ _ _ => []
  | .memory _ _ => ["ra", "we", "wa", "wv"]
  | .cpu => ["ia", "ib", "ic"]

/-- `get_output_ports` of each device. -/
def Dev.outputPorts : Dev → List String
  | .constant p _ => [p]
  | .sequencer p _ _ => [p]
  | .memory _ _ => ["rv"]
  | .cpu => ["oa", "ob", "oc"]

/-- `get_output_dependencies`.  Constant and Sequencer return the empty set
for their output port and `Err` otherwise (source); Cpu returns all three
inputs for each output (source).  Memory: modelled from the spec — the
snapshot's src/device/memory.rs implements an older trait without this
method; spec §4.4: "`read-value` depends only on `read-address` (internal
dependency)". -/
def Dev.getOutputDependencies : Dev → String → DRes (List String)
  | .constant op _, p => if p = op then .ok [] else .err
  | .sequencer op _ _, p => if p = op then .ok [] else .err
  | .memory _ _, p => if p = "rv" then .ok ["ra"] else .err
  | .cpu, p => if p = "oa" ∨ p = "ob" ∨ p = "oc" then .ok ["ia", "ib", "ic"] else .err

/-- The dependency list the Controller actually wires at registration:
`get_output_dependencies(...).expect(...)` — the error branch is a panic,
but it is dead for every declared output of every device, so the fallback
`[]` is never reached. -/
def Dev.depsOf (d : Dev) (p : String) : List String :=
  match d.getOutputDependencies p with
  | .ok l => l
  | _ => []

/-- `get_port_value`.  Constant: its fixed value; Sequencer: the element at
the cursor; Memory: from src `get_output_port_values` — `rv` is Known iff
`ra` was specified this tick, with unwritten addresses defaulting to 0
(`data.get(address).unwrap_or(&0)`), and any non-output port is an error
per the device contract; Cpu: `todo!()`. -/
def Dev.getPortValue : Dev → String → DRes (Option PortValue)
  | .constant op v, p => if p = op then .ok (some v) else .err
  | .sequencer op vs i, p => if p = op then .ok (vs.get? i) else .err
  | .memory data spec, p =>
      if p = "rv" then
        .ok (match lookupA spec "ra" with
             | none => none
             | some a => some ((lookupA data a).getD 0))
      else .err
  | .cpu, _ => .panicked

/-- `provide_port_value`.  Constant/Sequencer: no input ports, always
`Err` (source); Memory: from src `provide_port_values` — fails if the port
was already specified this tick or is not an input port, else records it;
Cpu: `todo!()`. -/
def Dev.providePortValue : Dev → String → PortValue → DRes Dev
  | .constant _ _, _, _ => .err
  | .sequencer _ _ _, _, _ => .err
  | .memory data spec, p, v =>
      if (spec.map Prod.fst).contains p ∨ ¬ (["ra", "we", "wa", "wv"].contains p) then .err
      else .ok (.memory data (insertA spec p v))
  | .cpu, _, _ => .panicked

/-- `Memory::tick` exactly as in src/device/memory.rs: requires `we`; if
`we` is nonzero, requires `wa` and `wv` and commits the write; if `we` is
zero, succeeds without touching the data.  Returns the new backing store
(`none` is `Err(DeviceError)`). -/
def Memory.tick (data : List (PortValue × PortValue)) (spec : List (String × PortValue)) :
    Option (List (PortValue × PortValue)) :=
  match lookupA spec "we" with
  | none => none
  | some we =>
    if we ≠ 0 then
      match lookupA spec "wa", lookupA spec "wv" with
      | some wa, some wv => some (insertA data wa wv)
      | _, _ => none
    else some data

/-- Device `tick`.  Constant: no-op; Sequencer: advance the cursor,
wrapping to 0 past the end (source); Memory: `Memory.tick` for the write
logic, then the per-tick `specified_this_tick` bookkeeping is cleared —
the clearing is modelled from the spec (§4.1: "After `tick()`, all
per-tick supplied-value bookkeeping is cleared"), since the snapshot's
memory.rs implements an older trait whose controller-facing impl is not in
the source; Cpu: `todo!()`. -/
def Dev.tick : Dev → DRes Dev
  | .constant op v => .ok (.constant op v)
  | .sequencer op vs i => .ok (.sequencer op vs (if i + 1 ≥ vs.length then 0 else i + 1))
  | .memory data spec =>
      match Memory.tick data spec with
      | none => .err
      | some data' => .ok (.memory data' [])
  | .cpu => .panicked

/-- `Sequencer::new`: rejects an empty value list, else starts the cursor
at 0. -/
def Sequencer.new (p : String) (vs : List PortValue) : Option Dev :=
  if vs.isEmpty then none else some (.sequencer p vs 0)

/-- The set of input ports supplied so far this tick (Memory's
`specified_this_tick` keys; other devices never successfully record an
input). -/
def Dev.provided : Dev → List String
  | .memory _ spec => spec.map Prod.fst
  | _ => []

/-- Whether the device is the stub Cpu (whose resolution methods are all
`todo!()`). -/
def Dev.isCpu : Dev → Bool
  | .cpu => true
  | _ => false

/-- Edge weight of the dependency graph (src/controller.rs `EdgeType`). -/
inductive EdgeKind : Type
  | internal
  | external
deriving DecidableEq

/-- A directed edge `(from, to, kind)` between node indices. -/
abbrev Edge := Nat × Nat × EdgeKind

/-- The Controller state (src/controller.rs).  `nodes` is the petgraph
node-weight table: node index `i` has weight `nodes[i]`, and `add_node`
appends (returning the old length as the fresh index). -/
structure Controller : Type where
  devices : List (String × Dev)
  ports : List (PortKey × Nat)
  nodes : List PortKey
  edges : List Edge
deriving DecidableEq

/-- `Controller::new()`. -/
def Controller.new : Controller := ⟨[], [], [], []⟩

/-- The first loop of `add_device`: for every input port, add a graph node
and point the port registry at it. -/
def addInputs (id : String) : List String → Controller → Controller
  | [], c => c
  | p :: ps, c =>
      addInputs id ps
        { c with nodes := c.nodes ++ [(id, p)],
                 ports := insertA c.ports (id, p) c.nodes.length }

/-- The inner loop of `add_device`'s output handling: one `Internal` edge
per declared dependency, from the dependency's registered node (the Rust
code indexes `self.ports[&(id, dep)]`, which panics when absent; for every
device in this crate the dependency is an input port inserted earlier in
the same call, so the `getD 0` fallback is dead code). -/
def addDeps (id : String) (idx : Nat) : List String → Controller → Controller
  | [], c => c
  | q :: qs, c =>
      addDeps id idx qs
        { c with edges := c.edges ++ [((lookupA c.ports (id, q)).getD 0, idx, .internal)] }

/-- One iteration of `add_device`'s output loop: add the output's node,
register it, then add its internal dependency edges. -/
def addOutput (id : String) (d : Dev) (c : Controller) (p : String) : Controller :=
  addDeps id c.nodes.length (d.depsOf p)
    { c with nodes := c.nodes ++ [(id, p)],
             ports := insertA c.ports (id, p) c.nodes.length }

/-- The second loop of `add_device`. -/
def addOutputs (id : String) (d : Dev) : List String → Controller → Controller
  | [], c => c
  | p :: ps, c => addOutputs id d ps (addOutput id d c p)

/-- `Controller::add_device`: register all input ports, then all output
ports with their internal edges, then take ownership of the device.  The
Rust function returns `()` — it has no failure channel and performs no
duplicate-identifier check. -/
def Controller.addDevice (c : Controller) (id : String) (d : Dev) : Controller :=
  let c2 := addOutputs id d d.outputPorts (addInputs id d.inputPorts c)
  { c2 with devices := insertA c2.devices id d }

/-- Forget edge kinds: the pair list the reachability analysis runs on. -/
def pairsOf (es : List Edge) : List (Nat × Nat) :=
  es.map (fun e => (e.1, e.2.1))

/-- Fuel-bounded reachability search over an edge list: `true` iff some
walk of at most `fuel` edges leads from `s` to `t`. -/
def reachF (E : List (Nat × Nat)) : Nat → Nat → Nat → Bool
  | 0, s, t => s == t
  | fuel + 1, s, t => s == t || E.any (fun e => e.1 == s && reachF E fuel e.2 t)

/-- Executable cycle test for a whole edge list: some edge `(a, b)` closes
a cycle, i.e. `b` reaches `a`.  Used to model the
`Acyclic::try_from_graph(...).expect(...)` wrapper, whose failure is a
panic. -/
def hasCycleB (es : List Edge) : Bool :=
  es.any (fun e => reachF (pairsOf es) (pairsOf es).length e.2.1 e.1)

/-- Whether inserting the edge `f → t` would create a directed cycle in an
acyclic graph: exactly when `t` already reaches `f` (this includes the
self-loop case `f = t`).  This is the documented behaviour of petgraph's
`Acyclic::try_add_edge`. -/
def addWouldCycle (es : List Edge) (f t : Nat) : Bool :=
  reachF (pairsOf es) (pairsOf es).length t f

/-- Outcome of `add_connection`: `Ok(())`, `Err(ControllerError)`, or the
panic of the `Acyclic::try_from_graph(...).expect(...)` wrapper. -/
inductive ConnResult : Type
  | ok
  | err
  | panicked
deriving DecidableEq

/-- `Controller::add_connection`: resolve both endpoints (Err if either is
unknown), wrap the graph in the acyclicity guard, try to add the
`External` edge (Err if it would create a cycle), and only then commit.
No port-direction or input-multiplicity check is performed (the two TODO
comments in the source). -/
def Controller.addConnection (c : Controller) (fd fp td tp : String) :
    Controller × ConnResult :=
  match lookupA c.ports (fd, fp) with
  | none => (c, .err)
  | some f =>
    match lookupA c.ports (td, tp) with
    | none => (c, .err)
    | some t =>
      if hasCycleB c.edges then (c, .panicked)
      else if addWouldCycle c.edges f t then (c, .err)
      else ({ c with edges := c.edges ++ [(f, t, .external)] }, .ok)

/-- Identifies the panic site when a tick aborts abnormally.  Each tag
corresponds to one `expect`/`panic!` in `Controller::tick` or to a
`todo!()` inside a device method reached from a given call site. -/
inductive PanicTag : Type
  | acyclicWrap
  | nodeWeightMissing
  | deviceMissing
  | deviceTodoAtOutput
  | outputValueErr
  | outputValueUnknown
  | multipleIncoming
  | upstreamWeightMissing
  | upstreamDeviceMissing
  | deviceTodoAtUpstream
  | upstreamNotOutput
  | upstreamValueUnknown
  | deviceTodoAtProvide
  | provideFailed
  | deviceTodoAtTick
deriving DecidableEq

/-- Abnormal result of one node visit or of a whole tick body: an ordinary
`Err(ControllerError)` return, or a panic. -/
inductive Res0 : Type
  | err
  | panicked (t : PanicTag)
deriving DecidableEq

/-- State of the tick loop after a visit: continue with updated devices and
result map, or abort. -/
inductive Step : Type
  | next (devs : List (String × Dev)) (acc : List (PortKey × PortValue))
  | fail (devs : List (String × Dev)) (r : Res0)
deriving DecidableEq

/-- The source nodes of the incoming edges of node `i`
(`neighbors_directed(i, Incoming)` — parallel edges each contribute a
neighbour, so the count matches `n_incoming`). -/
def incomingSources (es : List Edge) (i : Nat) : List Nat :=
  (es.filter (fun e => e.2.1 = i)).map (fun e => e.1)

/-- One iteration of the tick loop of `Controller::tick` (source lines
127–191) at node `i`: output ports read their value from their device
(which must be Known — anything else is one of the two `expect` panics);
input ports require exactly one incoming edge (zero is the
`UnresolvedInput` Err, more is the multiplicity `panic!`), read the
already-resolved upstream output and feed it to the device; a node whose
port the device classifies as neither input nor output is skipped. -/
def visit (nodes : List PortKey) (es : List Edge) (devs : List (String × Dev))
    (acc : List (PortKey × PortValue)) (i : Nat) : Step :=
  match nodes.get? i with
  | none => .fail devs (.panicked .nodeWeightMissing)
  | some (did, pid) =>
    match lookupA devs did with
    | none => .fail devs (.panicked .deviceMissing)
    | some device =>
      if pid ∈ device.outputPorts then
        match device.getPortValue pid with
        | .panicked => .fail devs (.panicked .deviceTodoAtOutput)
        | .err => .fail devs (.panicked .outputValueErr)
        | .ok none => .fail devs (.panicked .outputValueUnknown)
        | .ok (some v) => .next devs (insertA acc (did, pid) v)
      else if pid ∈ device.inputPorts then
        match incomingSources es i with
        | [] => .fail devs .err
        | [j] =>
          match nodes.get? j with
          | none => .fail devs (.panicked .upstreamWeightMissing)
          | some (odid, opid) =>
            match lookupA devs odid with
            | none => .fail devs (.panicked .upstreamDeviceMissing)
            | some odev =>
              match odev.getPortValue opid with
              | .panicked => .fail devs (.panicked .deviceTodoAtUpstream)
              | .err => .fail devs (.panicked .upstreamNotOutput)
              | .ok none => .fail devs (.panicked .upstreamValueUnknown)
              | .ok (some v) =>
                match device.providePortValue pid v with
                | .panicked => .fail devs (.panicked .deviceTodoAtProvide)
                | .err => .fail devs (.panicked .provideFailed)
                | .ok d' => .next (insertA devs did d') (insertA acc (did, pid) v)
        | _ :: _ :: _ => .fail devs (.panicked .multipleIncoming)
      else .next devs acc

/-- The tick loop over the visiting order. -/
def runLoop (nodes : List PortKey) (es : List Edge) :
    List Nat → List (String × Dev) → List (PortKey × PortValue) → Step
  | [], devs, acc => .next devs acc
  | i :: rest, devs, acc =>
    match visit nodes es devs acc i with
    | .next devs' acc' => runLoop nodes es rest devs' acc'
    | .fail devs' r => .fail devs' r

/-- The final loop of `Controller::tick`: tick every device, aborting on
the first failure (devices already ticked keep their new state, the rest
are untouched). -/
def devTicks : List (String × Dev) → List (String × Dev) × Option Res0
  | [] => ([], none)
  | (id, d) :: rest =>
    match d.tick with
    | .panicked => ((id, d) :: rest, some (.panicked .deviceTodoAtTick))
    | .err => ((id, d) :: rest, some .err)
    | .ok d' =>
      let r := devTicks rest
      ((id, d') :: r.1, r.2)

/-- Overall result of `Controller::tick`. -/
inductive TickOutcome : Type
  | ok (values : List (PortKey × PortValue))
  | err
  | panicked (t : PanicTag)
deriving DecidableEq

/-- `Controller::tick`, parameterised by the node visiting order (petgraph
iterates its `Acyclic` wrapper in an implementation-defined topological
order).  Wrapping panics on a cyclic graph (dead under the maintained
invariant); then every node is visited in order; then every device is
ticked. -/
def Controller.tick (c : Controller) (order : List Nat) : TickOutcome × Controller :=
  if hasCycleB c.edges then (.panicked .acyclicWrap, c)
  else
    match runLoop c.nodes c.edges order c.devices [] with
    | .fail devs' .err => (.err, { c with devices := devs' })
    | .fail devs' (.panicked t) => (.panicked t, { c with devices := devs' })
    | .next devs' acc =>
      match devTicks devs' with
      | (devs2, some .err) => (.err, { c with devices := devs2 })
      | (devs2, some (.panicked t)) => (.panicked t, { c with devices := devs2 })
      | (devs2, none) => (.ok acc, { c with devices := devs2 })

/-- Position of `x` in a list of node indices (first occurrence). -/
def idxOf : List Nat → Nat → Nat
  | [], _ => 0
  | a :: l, x => if a = x then 0 else idxOf l x + 1

/-- `order` is a topological order of the controller's graph: a permutation
of all node indices in which every edge points forward. -/
abbrev IsTopo (c : Controller) (order : List Nat) : Prop :=
  List.Perm order (List.range c.nodes.length) ∧
    ∀ e ∈ c.edges, idxOf order e.1 < idxOf order e.2.1

/-- Reflexive-transitive reachability along directed edges. -/
inductive Reach (E : List (Nat × Nat)) : Nat → Nat → Prop
  | refl (a : Nat) : Reach E a a
  | step {a b c : Nat} : (a, b) ∈ E → Reach E b c → Reach E a c

/-- The graph has no directed cycle: no edge is closed back on itself by a
reachability path. -/
def NoCycle (E : List (Nat × Nat)) : Prop :=
  ∀ a b, (a, b) ∈ E → ¬ Reach E b a

/-- `IsWalk E s w t`: `w` is a consecutive list of edges of `E` leading
from `s` to `t`. -/
def IsWalk (E : List (Nat × Nat)) : Nat → List (Nat × Nat) → Nat → Prop
  | s, [], t => s = t
  | s, e :: w, t => e ∈ E ∧ e.1 = s ∧ IsWalk E e.2 w t

/-- Constructor-level well-formedness a device acquires at construction
and keeps for life: a Sequencer's value list is non-empty and its cursor
in bounds (`Sequencer::new` rejects empty lists; `tick` wraps the
cursor). -/
def Dev.wf : Dev → Prop
  | .sequencer _ vs i => vs ≠ [] ∧ i < vs.length
  | _ => True

/-- The device-contract surface the Controller's graph bookkeeping sees:
two devices with the same shape are interchangeable for classification,
internal-edge layout and panic analysis.  Providing values and ticking
never change a device's shape. -/
def SameShape (d0 d : Dev) : Prop :=
  d.inputPorts = d0.inputPorts ∧ d.outputPorts = d0.outputPorts ∧
    (∀ p, d.depsOf p = d0.depsOf p) ∧ d.isCpu = d0.isCpu

/-- Device maps before/after an operation: same keys in the same order,
and each device keeps its shape and its well-formedness. -/
def DevsEvolve (a b : List (String × Dev)) : Prop :=
  a.map Prod.fst = b.map Prod.fst ∧
    ∀ id d d', lookupA a id = some d → lookupA b id = some d' →
      SameShape d d' ∧ (Dev.wf d → Dev.wf d')

/-- The public device constructors of the repository, as callable by the
thin entry point: `Constant::new`, `Sequencer::new` (fallible),
`Memory::new`, `Cpu::new`/`with_instructions`. -/
inductive DevInit : Type
  | constant (p : String) (v : PortValue)
  | sequencer (p : String) (vs : List PortValue)
  | memory
  | cpu

/-- Run a device constructor; `none` when the constructor itself fails
(only `Sequencer::new` on an empty list). -/
def DevInit.make : DevInit → Option Dev
  | .constant p v => some (.constant p v)
  | .sequencer p vs => Sequencer.new p vs
  | .memory => some (.memory [] [])
  | .cpu => some .cpu

/-- Controllers reachable from `Controller::new()` by any sequence of
`add_device` (with devices built by their public constructors),
`add_connection` and `tick` calls. -/
inductive Reachable : Controller → Prop
  | base : Reachable Controller.new
  | addDev {c : Controller} (id : String) (i : DevInit) (d : Dev) :
      Reachable c → i.make = some d → Reachable (c.addDevice id d)
  | addConn {c : Controller} (fd fp td tp : String) :
      Reachable c → Reachable (c.addConnection fd fp td tp).1
  | tick {c : Controller} (order : List Nat) :
      Reachable c → Reachable (c.tick order).2

/-- Like `Reachable`, but every `add_device` uses a previously unused
device identifier (no silent overwriting of registrations). -/
inductive ReachableF : Controller → Prop
  | base : ReachableF Controller.new
  | addDev {c : Controller} (id : String) (i : DevInit) (d : Dev) :
      ReachableF c → i.make = some d → lookupA c.devices id = none →
      ReachableF (c.addDevice id d)
  | addConn {c : Controller} (fd fp td tp : String) :
      ReachableF c → ReachableF (c.addConnection fd fp td tp).1
  | tick {c : Controller} (order : List Nat) :
      ReachableF c → ReachableF (c.tick order).2

/-- No device holds a supplied-this-tick value (true initially, and again
after every successful whole-circuit tick clears the bookkeeping). -/
def freshB (c : Controller) : Bool :=
  c.devices.all (fun pr => pr.2.provided.isEmpty)

/-- Sound wiring: every input-port node has at most one incoming edge,
each coming from an output-port node of a non-stub device, and no input
of the stub Cpu is wired at all.  (`add_connection` enforces none of
this; the claims about Err-not-panic ticking hold only under it.) -/
def soundWiringB (c : Controller) : Bool :=
  (List.range c.nodes.length).all (fun i =>
    match c.nodes.get? i with
    | none => true
    | some (id, p) =>
      match lookupA c.devices id with
      | none => true
      | some d =>
        if p ∈ d.inputPorts then
          decide ((incomingSources c.edges i).length ≤ 1) &&
          (!d.isCpu || (incomingSources c.edges i).isEmpty) &&
          (incomingSources c.edges i).all (fun j =>
            match c.nodes.get? j with
            | none => false
            | some (jd, jp) =>
              match lookupA c.devices jd with
              | none => false
              | some dj => decide (jp ∈ dj.outputPorts) && !dj.isCpu)
        else true)

/-- Iterate successful device ticks (`none` as soon as one fails). -/
def tickIter : Nat → Dev → Option Dev
  | 0, d => some d
  | n + 1, d =>
    match d.tick with
    | .ok d' => tickIter n d'
    | _ => none

/-- The §8 memory write/read scenario: one Memory plus four Constants
wired to `read-address = 0`, `write-enable = 1`, `write-address = 0`,
`write-value = 5`. -/
def c9Scenario : Controller :=
  let c := Controller.new
  let c := c.addDevice "M" (.memory [] [])
  let c := c.addDevice "RA" (.constant "q" 0)
  let c := c.addDevice "WE" (.constant "q" 1)
  let c := c.addDevice "WA" (.constant "q" 0)
  let c := c.addDevice "WV" (.constant "q" 5)
  let c := (c.addConnection "RA" "q" "M" "ra").1
  let c := (c.addConnection "WE" "q" "M" "we").1
  let c := (c.addConnection "WA" "q" "M" "wa").1
  (c.addConnection "WV" "q" "M" "wv").1

/-- A topological order for `c9Scenario`: the four constants first, then
Memory's inputs, then its output. -/
def c9Order : List Nat := [5, 6, 7, 8, 0, 1, 2, 3, 4]

/-- Two constant sources both wired into Memory's `ra` input: two incoming
edges on one input port, which `add_connection` accepts. -/
def c5Scenario : Controller :=
  let c := Controller.new
  let c := c.addDevice "M" (.memory [] [])
  let c := c.addDevice "K1" (.constant "q" 1)
  let c := c.addDevice "K2" (.constant "q" 2)
  (c.addConnection "K1" "q" "M" "ra").1

/-- A Memory with only its `ra` input wired (from a constant); `we`, `wa`
and `wv` stay unconnected. -/
def c6Scenario : Controller :=
  let c := Controller.new
  let c := c.addDevice "K" (.constant "q" 1)
  let c := c.addDevice "M" (.memory [] [])
  (c.addConnection "K" "q" "M" "ra").1

/-- A topological order for `c6Scenario` (and for the duplicate
registration of `c2Scenario`, which has the same node count). -/
def c6Order : List Nat := [0, 1, 2, 3, 4, 5]

/-- A duplicate registration: a Constant named like Memory's output is
registered under "M", then a Memory overwrites it, leaving the
Constant's stale `("M", "rv")` node 0 with no incoming internal edge. -/
def c2Scenario : Controller :=
  (Controller.new.addDevice "M" (.constant "rv" 5)).addDevice "M" (.memory [] [])

/-- Registering two different Constants under the same identifier. -/
def c4Scenario : Controller :=
  (Controller.new.addDevice "M" (.constant "q" 1)).addDevice "M" (.constant "q" 2)

/-- A Controller holding one fresh Memory (used by witnesses). -/
def cMemOnly : Controller := Controller.new.addDevice "Memory" (.memory [] [])

/-- The basic structural invariant every reachable Controller maintains
(duplicate registrations included): the graph is acyclic, edge endpoints
are genuine node indices, and the port registry points at nodes carrying
the registered key as weight. -/
def Inv0 (c : Controller) : Prop :=
  NoCycle (pairsOf c.edges) ∧
    (∀ e ∈ c.edges, e.1 < c.nodes.length ∧ e.2.1 < c.nodes.length) ∧
    (∀ k j, lookupA c.ports k = some j → j < c.nodes.length ∧ c.nodes.get? j = some k)

/-- The full invariant maintained when every registration uses a fresh
identifier: additionally, node weights are pairwise distinct, device keys
are distinct, every device is well formed, every node belongs to a
registered device, and every output node has an internal edge from a node
of each of its declared dependencies. -/
def InvF (c : Controller) : Prop :=
  Inv0 c ∧
    c.nodes.Nodup ∧
    (c.devices.map Prod.fst).Nodup ∧
    (∀ id dv, lookupA c.devices id = some dv → Dev.wf dv) ∧
    (∀ i id p, c.nodes.get? i = some ((id, p) : PortKey) →
      ∃ dv, lookupA c.devices id = some dv) ∧
    (∀ i id p dv, c.nodes.get? i = some ((id, p) : PortKey) →
      lookupA c.devices id = some dv → p ∈ dv.outputPorts →
      ∀ q ∈ dv.depsOf p, ∃ j, c.nodes.get? j = some ((id, q) : PortKey) ∧
        (j, i, EdgeKind.internal) ∈ c.edges)

/-- Invariant carried along the tick loop: device keys are unchanged,
each device has only evolved by receiving values (same shape, still well
formed), and every already-visited input node's port has been supplied to
its device. -/
def LoopInv (nodes : List PortKey) (devs0 devs : List (String × Dev))
    (visited : List Nat) : Prop :=
  devs.map Prod.fst = devs0.map Prod.fst ∧
    (∀ id dv, lookupA devs id = some dv →
      ∃ dv0, lookupA devs0 id = some dv0 ∧ SameShape dv0 dv) ∧
    (∀ id dv, lookupA devs id = some dv → Dev.wf dv) ∧
    (∀ j ∈ visited, ∀ id p, nodes.get? j = some ((id, p) : PortKey) →
      ∀ dv, lookupA devs id = some dv → p ∈ dv.inputPorts → p ∈ dv.provided)

/-- Strengthening of `LoopInv` for sound circuits: every supplied port is
accounted for by a visited node (so nothing was supplied twice). -/
def LoopInvB (nodes : List PortKey) (devs0 devs : List (String × Dev))
    (visited : List Nat) : Prop :=
  LoopInv nodes devs0 devs visited ∧
    ∀ id dv, lookupA devs id = some dv → ∀ p ∈ dv.provided,
      ∃ j ∈ visited, nodes.get? j = some ((id, p) : PortKey)

/-- The device map a loop step carries, regardless of how the step ended. -/
def stepDevs : Step → List (String × Dev)
  | .next devs _ => devs
  | .fail devs _ => devs

/-- The tick loop did not abort through the output-visit branch: its result
is not one of the three abnormal ends of the "this is an output port" arm
(`expect` on `Err`, `expect` on an Unknown value, or a device `todo!()`
reached from `get_port_value` there). -/
def NotOutputExpect : Step → Prop
  | .fail _ (.panicked .outputValueUnknown) => False
  | .fail _ (.panicked .outputValueErr) => False
  | .fail _ (.panicked .deviceTodoAtOutput) => False
  | _ => True

/-- Sound-wiring hypotheses in Prop form (see `soundWiringB`). -/
def SoundW (nodes : List PortKey) (es : List Edge) (devs0 : List (String × Dev)) : Prop :=
  ∀ i id p dv, nodes.get? i = some ((id, p) : PortKey) → lookupA devs0 id = some dv →
    p ∈ dv.inputPorts →
    (incomingSources es i).length ≤ 1 ∧
    (dv.isCpu = true → incomingSources es i = []) ∧
    ∀ j ∈ incomingSources es i, ∃ jd jp dvj, nodes.get? j = some ((jd, jp) : PortKey) ∧
      lookupA devs0 jd = some dvj ∧ jp ∈ dvj.outputPorts ∧ dvj.isCpu = false

/-! ### Association-list lemmas -/

theorem lookupA_insertA_self {κ β : Type} [DecidableEq κ] (l : List (κ × β)) (k : κ) (v : β) :
    lookupA (insertA l k v) k = some v := by
  induction l with
  | nil => simp [insertA, lookupA]
  | cons h t ih =>
    obtain ⟨k', v'⟩ := h
    by_cases hk : k' = k
    · subst hk
      simp [insertA, lookupA]
    · simp [insertA, lookupA, hk, ih]

theorem lookupA_insertA_ne {κ β : Type} [DecidableEq κ] (l : List (κ × β)) (k k' : κ) (v : β)
    (h : k' ≠ k) : lookupA (insertA l k v) k' = lookupA l k' := by
  induction l with
  | nil => simp [insertA, lookupA, Ne.symm h]
  | cons hd t ih =>
    obtain ⟨a, b⟩ := hd
    by_cases ha : a = k
    · subst ha
      simp [insertA, lookupA, Ne.symm h]
    · simp [insertA, lookupA, ha, ih]

theorem lookupA_mem {κ β : Type} [DecidableEq κ] {l : List (κ × β)} {k : κ} {v : β}
    (h : lookupA l k = some v) : (k, v) ∈ l := by
  induction l with
  | nil => simp [lookupA] at h
  | cons hd t ih =>
    obtain ⟨a, b⟩ := hd
    by_cases ha : a = k
    · subst ha
      simp [lookupA] at h
      simp [h]
    · simp [lookupA, ha] at h
      exact List.mem_cons_of_mem _ (ih h)

theorem lookupA_isSome_iff {κ β : Type} [DecidableEq κ] (l : List (κ × β)) (k : κ) :
    (lookupA l k).isSome = true ↔ k ∈ l.map Prod.fst := by
  induction l with
  | nil => simp [lookupA]
  | cons hd t ih =>
    obtain ⟨a, b⟩ := hd
    rw [List.map_cons, List.mem_cons]
    by_cases ha : a = k
    · subst ha
      simp [lookupA]
    · simp only [lookupA, ha, if_false]
      rw [ih]
      constructor
      · intro hm; exact Or.inr hm
      · intro hm
        rcases hm with hm | hm
        · exact absurd hm.symm ha
        · exact hm

theorem lookupA_eq_none_iff {κ β : Type} [DecidableEq κ] (l : List (κ × β)) (k : κ) :
    lookupA l k = none ↔ k ∉ l.map Prod.fst := by
  rw [← lookupA_isSome_iff]
  cases lookupA l k <;> simp

theorem insertA_map_fst_of_mem {κ β : Type} [DecidableEq κ] {l : List (κ × β)} {k : κ} (v : β)
    (h : k ∈ l.map Prod.fst) : (insertA l k v).map Prod.fst = l.map Prod.fst := by
  induction l with
  | nil => simp at h
  | cons hd t ih =>
    obtain ⟨a, b⟩ := hd
    by_cases ha : a = k
    · subst ha
      simp [insertA]
    · rw [List.map_cons, List.mem_cons] at h
      rcases h with h | h
      · exact absurd h.symm ha
      · simp [insertA, ha, ih h]

theorem insertA_map_fst_of_not_mem {κ β : Type} [DecidableEq κ] {l : List (κ × β)} {k : κ} (v : β)
    (h : k ∉ l.map Prod.fst) : (insertA l k v).map Prod.fst = l.map Prod.fst ++ [k] := by
  induction l with
  | nil => simp [insertA]
  | cons hd t ih =>
    obtain ⟨a, b⟩ := hd
    rw [List.map_cons, List.mem_cons] at h
    push_neg at h
    have ha : a ≠ k := fun hh => h.1 hh.symm
    simp [insertA, ha, ih h.2]

/-! ### Reachability, walks, and the executable search -/

theorem Reach.trans {E : List (Nat × Nat)} {a b c : Nat} (h1 : Reach E a b)
    (h2 : Reach E b c) : Reach E a c := by
  induction h1 with
  | refl _ => exact h2
  | step he _ ih => exact Reach.step he (ih h2)

theorem reachF_sound {E : List (Nat × Nat)} :
    ∀ (fuel s t : Nat), reachF E fuel s t = true → Reach E s t := by
  intro fuel
  induction fuel with
  | zero =>
    intro s t h
    simp [reachF] at h
    exact h ▸ Reach.refl s
  | succ n ih =>
    intro s t h
    simp only [reachF, Bool.or_eq_true, beq_iff_eq, List.any_eq_true,
      Bool.and_eq_true] at h
    rcases h with h | ⟨e, he, hcond⟩
    · exact h ▸ Reach.refl s
    · obtain ⟨hs, hr⟩ := hcond
      have he' : (s, e.2) ∈ E := by
        have heq : e = (s, e.2) := by
          rw [← hs]
        exact heq ▸ he
      exact Reach.step he' (ih _ _ hr)

theorem walk_of_reach {E : List (Nat × Nat)} {s t : Nat} (h : Reach E s t) :
    ∃ w, IsWalk E s w t := by
  induction h with
  | refl a => exact ⟨[], rfl⟩
  | step he _ ih =>
    obtain ⟨w, hw⟩ := ih
    exact ⟨_ :: w, he, rfl, hw⟩

theorem reach_of_walk {E : List (Nat × Nat)} :
    ∀ (w : List (Nat × Nat)) (s t : Nat), IsWalk E s w t → Reach E s t := by
  intro w
  induction w with
  | nil =>
    intro s t h
    exact h ▸ Reach.refl s
  | cons e w ih =>
    intro s t h
    obtain ⟨he, hs, hw⟩ := h
    exact Reach.step (hs ▸ he) (ih _ _ hw)

theorem walk_edges_mem {E : List (Nat × Nat)} :
    ∀ (w : List (Nat × Nat)) (s t : Nat), IsWalk E s w t → ∀ e ∈ w, e ∈ E := by
  intro w
  induction w with
  | nil => intro s t _ e he; simp at he
  | cons a w ih =>
    intro s t h e he
    obtain ⟨ha, _, hw⟩ := h
    rcases List.mem_cons.mp he with h1 | h2
    · exact h1 ▸ ha
    · exact ih _ _ hw e h2

theorem walk_append {E : List (Nat × Nat)} :
    ∀ (u v : List (Nat × Nat)) (s t : Nat),
      IsWalk E s (u ++ v) t ↔ ∃ m, IsWalk E s u m ∧ IsWalk E m v t := by
  intro u
  induction u with
  | nil =>
    intro v s t
    constructor
    · intro h; exact ⟨s, rfl, h⟩
    · rintro ⟨m, hm, hv⟩
      exact (show s = m from hm) ▸ hv
  | cons e u ih =>
    intro v s t
    constructor
    · rintro ⟨he, hs, hw⟩
      obtain ⟨m, h1, h2⟩ := (ih v e.2 t).mp hw
      exact ⟨m, ⟨he, hs, h1⟩, h2⟩
    · rintro ⟨m, ⟨he, hs, h1⟩, h2⟩
      exact ⟨he, hs, (ih v e.2 t).mpr ⟨m, h1, h2⟩⟩

theorem reachF_of_walk {E : List (Nat × Nat)} :
    ∀ (w : List (Nat × Nat)) (fuel s t : Nat), IsWalk E s w t → w.length ≤ fuel →
      reachF E fuel s t = true := by
  intro w
  induction w with
  | nil =>
    intro fuel s t h _
    have hst : s = t := h
    subst hst
    cases fuel with
    | zero => simp [reachF]
    | succ n => simp [reachF]
  | cons e w ih =>
    intro fuel s t h hlen
    obtain ⟨he, hs, hw⟩ := h
    cases fuel with
    | zero => simp at hlen
    | succ n =>
      simp only [reachF, Bool.or_eq_true, beq_iff_eq, List.any_eq_true, Bool.and_eq_true]
      refine Or.inr ⟨e, he, ?_, ?_⟩
      · simp [hs]
      · exact ih n e.2 t hw (Nat.le_of_succ_le_succ hlen)

theorem nodup_length_le_of_subset {α : Type} [DecidableEq α] :
    ∀ (l E : List α), l.Nodup → (∀ x ∈ l, x ∈ E) → l.length ≤ E.length := by
  intro l
  induction l with
  | nil => intro E _ _; simp
  | cons a l ih =>
    intro E hnd hsub
    have ha : a ∈ E := hsub a (List.mem_cons_self a l)
    have hnd' := List.nodup_cons.mp hnd
    have hsub' : ∀ x ∈ l, x ∈ E.erase a := by
      intro x hx
      have hne : x ≠ a := fun hh : x = a => hnd'.1 (hh ▸ hx)
      exact (List.mem_erase_of_ne hne).mpr (hsub x (List.mem_cons_of_mem a hx))
    have hlen := ih (E.erase a) hnd'.2 hsub'
    have herase : (E.erase a).length = E.length - 1 := List.length_erase_of_mem ha
    have hpos : 1 ≤ E.length := by
      cases E with
      | nil => simp at ha
      | cons _ _ => simp
    simp only [List.length_cons]
    omega

theorem exists_dup_split {α : Type} [DecidableEq α] :
    ∀ (l : List α), ¬ l.Nodup → ∃ (l1 : List α) (a : α) (l2 l3 : List α),
      l = l1 ++ a :: l2 ++ a :: l3 := by
  intro l
  induction l with
  | nil => intro h; exact absurd List.nodup_nil h
  | cons x l ih =>
    intro h
    by_cases hx : x ∈ l
    · obtain ⟨s, t, hst⟩ := List.append_of_mem hx
      exact ⟨[], x, s, t, by simp [hst]⟩
    · have : ¬ l.Nodup := by
        intro hnd
        exact h (List.nodup_cons.mpr ⟨hx, hnd⟩)
      obtain ⟨l1, a, l2, l3, hl⟩ := ih this
      exact ⟨x :: l1, a, l2, l3, by simp [hl]⟩

theorem walk_cut {E : List (Nat × Nat)} {s t : Nat} {w1 w2 w3 : List (Nat × Nat)}
    {e : Nat × Nat} (h : IsWalk E s (w1 ++ e :: w2 ++ e :: w3) t) :
    IsWalk E s (w1 ++ e :: w3) t := by
  obtain ⟨m, hA, hB⟩ := (walk_append (w1 ++ e :: w2) (e :: w3) s t).mp h
  obtain ⟨m1, h1, h2⟩ := (walk_append w1 (e :: w2) s m).mp hA
  obtain ⟨he, hm, _⟩ := h2
  obtain ⟨_, _, h6⟩ := hB
  exact (walk_append w1 (e :: w3) s t).mpr ⟨m1, h1, he, hm, h6⟩

theorem walk_shorten {E : List (Nat × Nat)} {s t : Nat} :
    ∀ (n : Nat) (w : List (Nat × Nat)), w.length ≤ n → IsWalk E s w t →
      ∃ w', IsWalk E s w' t ∧ w'.length ≤ E.length := by
  intro n
  induction n with
  | zero =>
    intro w hlen hw
    have : w = [] := List.length_eq_zero.mp (Nat.le_zero.mp hlen)
    subst this
    exact ⟨[], hw, by simp⟩
  | succ n ih =>
    intro w hlen hw
    by_cases hle : w.length ≤ E.length
    · exact ⟨w, hw, hle⟩
    · have hndup : ¬ w.Nodup := by
        intro hnd
        exact hle (nodup_length_le_of_subset w E hnd (walk_edges_mem w s t hw))
      obtain ⟨w1, e, w2, w3, hsplit⟩ := exists_dup_split w hndup
      have hw' : IsWalk E s (w1 ++ e :: w3) t := walk_cut (hsplit ▸ hw)
      have hlen' : (w1 ++ e :: w3).length ≤ n := by
        have : w.length = w1.length + w2.length + w3.length + 2 := by
          simp [hsplit]
          omega
        simp only [List.length_append, List.length_cons]
        omega
      exact ih _ hlen' hw'

theorem reachF_complete {E : List (Nat × Nat)} {s t : Nat} (h : Reach E s t) :
    reachF E E.length s t = true := by
  obtain ⟨w, hw⟩ := walk_of_reach h
  obtain ⟨w', hw', hlen⟩ := walk_shorten w.length w (Nat.le_refl _) hw
  exact reachF_of_walk w' E.length s t hw' hlen

theorem not_reach_of_reachF_false {E : List (Nat × Nat)} {s t : Nat}
    (h : reachF E E.length s t = false) : ¬ Reach E s t := by
  intro hr
  rw [reachF_complete hr] at h
  simp at h

/-- A cycle in `E ++ [(f, t)]` forces one in `E` unless `t` already
reached `f`: reachability in the extended graph decomposes. -/
theorem reach_append_single {E : List (Nat × Nat)} {f t : Nat} :
    ∀ {x y : Nat}, Reach (E ++ [(f, t)]) x y →
      Reach E x y ∨ (Reach E x f ∧ Reach E t y) := by
  intro x y h
  induction h with
  | refl a => exact Or.inl (Reach.refl a)
  | @step a b c he _ ih =>
    rcases List.mem_append.mp he with hE | hnew
    · rcases ih with ih | ⟨ih1, ih2⟩
      · exact Or.inl (Reach.step hE ih)
      · exact Or.inr ⟨Reach.step hE ih1, ih2⟩
    · have hab : a = f ∧ b = t := by
        have heq := List.mem_singleton.mp hnew
        exact ⟨congrArg Prod.fst heq, congrArg Prod.snd heq⟩
      obtain ⟨ha, hb⟩ := hab
      subst ha
      subst hb
      rcases ih with ih | ⟨ih1, ih2⟩
      · exact Or.inr ⟨Reach.refl _, ih⟩
      · exact Or.inr ⟨Reach.refl _, ih2⟩

theorem noCycle_append_single {E : List (Nat × Nat)} {f t : Nat} (hnc : NoCycle E)
    (hnr : ¬ Reach E t f) : NoCycle (E ++ [(f, t)]) := by
  intro a b hab hr
  rcases List.mem_append.mp hab with hE | hnew
  · rcases reach_append_single hr with h | ⟨h1, h2⟩
    · exact hnc a b hE h
    · exact hnr (Reach.trans h2 (Reach.step hE h1))
  · have hab' : a = f ∧ b = t := by
      have := List.mem_singleton.mp hnew
      exact ⟨congrArg Prod.fst this, congrArg Prod.snd this⟩
    obtain ⟨ha, hb⟩ := hab'
    subst ha
    subst hb
    rcases reach_append_single hr with h | ⟨h1, h2⟩
    · exact hnr h
    · exact hnr h1

/-- Appending a block of edges all of whose targets lie in the "sink"
region `[bound, ∞)`, while no edge of the combined graph starts there,
cannot create a cycle. -/
theorem reach_append_sink {E F : List (Nat × Nat)} {bound : Nat}
    (hF : ∀ e ∈ F, bound ≤ e.2) (hsrc : ∀ e ∈ E ++ F, e.1 < bound) :
    ∀ {x y : Nat}, Reach (E ++ F) x y → y < bound → Reach E x y := by
  intro x y h
  induction h with
  | refl a => intro _; exact Reach.refl a
  | @step a b c he _ ih =>
    intro hy
    have hreach := ih hy
    rcases List.mem_append.mp he with hE | hFmem
    · exact Reach.step hE hreach
    · have hb : bound ≤ b := hF _ hFmem
      cases hreach with
      | refl => omega
      | @step _ b2 _ he2 _ =>
        have hlt : b < bound := hsrc _ (List.mem_append_left F he2)
        omega

theorem noCycle_append_sink {E F : List (Nat × Nat)} {bound : Nat} (hnc : NoCycle E)
    (hF : ∀ e ∈ F, bound ≤ e.2) (hsrc : ∀ e ∈ E ++ F, e.1 < bound) :
    NoCycle (E ++ F) := by
  intro a b hab hr
  have ha : a < bound := hsrc _ hab
  have hreach : Reach E b a := reach_append_sink hF hsrc hr ha
  rcases List.mem_append.mp hab with hE | hFmem
  · exact hnc a b hE hreach
  · have hb : bound ≤ b := hF _ hFmem
    cases hreach with
    | refl => omega
    | @step _ b2 _ he2 _ =>
      have hlt : b < bound := hsrc _ (List.mem_append_left F he2)
      omega

theorem noCycle_nil : NoCycle ([] : List (Nat × Nat)) := by
  intro a b hab
  simp at hab

theorem hasCycleB_eq_false_iff (es : List Edge) :
    hasCycleB es = false ↔ NoCycle (pairsOf es) := by
  constructor
  · intro h a b hab hr
    obtain ⟨e, he, heq⟩ := List.mem_map.mp hab
    have h1 : e.1 = a := congrArg Prod.fst heq
    have h2 : e.2.1 = b := congrArg Prod.snd heq
    have hF : reachF (pairsOf es) (pairsOf es).length e.2.1 e.1 = true := by
      rw [h1, h2]
      exact reachF_complete hr
    have htrue : hasCycleB es = true := by
      simp only [hasCycleB, List.any_eq_true]
      exact ⟨e, he, hF⟩
    rw [htrue] at h
    simp at h
  · intro hnc
    by_cases h : hasCycleB es = false
    · exact h
    · exfalso
      have htrue : hasCycleB es = true := Bool.of_not_eq_false h
      simp only [hasCycleB, List.any_eq_true] at htrue
      obtain ⟨e, he, hF⟩ := htrue
      have hre : Reach (pairsOf es) e.2.1 e.1 := reachF_sound _ _ _ hF
      exact hnc e.1 e.2.1 (List.mem_map.mpr ⟨e, he, rfl⟩) hre

/-! ### Topological-order bookkeeping -/

theorem idxOf_append_of_not_mem {pre : List Nat} {i : Nat} (h : i ∉ pre) :
    ∀ post, idxOf (pre ++ i :: post) i = pre.length := by
  induction pre with
  | nil => intro post; simp [idxOf]
  | cons a l ih =>
    intro post
    have ha : a ≠ i := fun hh => h (hh ▸ List.mem_cons_self a l)
    have h' : i ∉ l := fun hh => h (List.mem_cons_of_mem a hh)
    simp [idxOf, ha, ih h']

theorem mem_of_idxOf_lt {a : Nat} :
    ∀ (pre rest : List Nat), idxOf (pre ++ rest) a < pre.length → a ∈ pre := by
  intro pre
  induction pre with
  | nil => intro rest h; simp [idxOf] at h
  | cons x l ih =>
    intro rest h
    by_cases hx : x = a
    · exact hx ▸ List.mem_cons_self x l
    · simp only [List.cons_append, idxOf, hx, if_false, List.length_cons] at h
      exact List.mem_cons_of_mem x (ih rest (Nat.lt_of_succ_lt_succ h))

theorem topo_mem_pre {order pre rest : List Nat} {i a : Nat} (hnd : order.Nodup)
    (hsplit : order = pre ++ i :: rest) (hlt : idxOf order a < idxOf order i) : a ∈ pre := by
  have hipre : i ∉ pre := by
    intro hmem
    rw [hsplit] at hnd
    have := (List.nodup_append.mp hnd).2.2
    exact this hmem (List.mem_cons_self i rest)
  have hidx : idxOf order i = pre.length := by
    rw [hsplit]
    exact idxOf_append_of_not_mem hipre rest
  rw [hidx] at hlt
  rw [hsplit] at hlt
  exact mem_of_idxOf_lt pre (i :: rest) hlt

theorem order_nodup {c : Controller} {order : List Nat} (h : IsTopo c order) : order.Nodup :=
  h.1.nodup_iff.mpr (List.nodup_range _)

theorem order_mem_iff {c : Controller} {order : List Nat} (h : IsTopo c order) (i : Nat) :
    i ∈ order ↔ i < c.nodes.length := by
  rw [h.1.mem_iff, List.mem_range]

/-! ### Structural facts about the concrete devices -/

theorem Dev.deps_subset (d : Dev) (p : String) : ∀ q ∈ d.depsOf p, q ∈ d.inputPorts := by
  intro q hq
  cases d with
  | constant op v =>
    unfold Dev.depsOf Dev.getOutputDependencies at hq
    by_cases hp : p = op <;> simp [hp] at hq
  | sequencer op vs i =>
    unfold Dev.depsOf Dev.getOutputDependencies at hq
    by_cases hp : p = op <;> simp [hp] at hq
  | memory data spec =>
    unfold Dev.depsOf Dev.getOutputDependencies at hq
    by_cases hp : p = "rv"
    · simp [hp] at hq
      simp [Dev.inputPorts, hq]
    · simp [hp] at hq
  | cpu =>
    unfold Dev.depsOf Dev.getOutputDependencies at hq
    by_cases hp : p = "oa" ∨ p = "ob" ∨ p = "oc"
    · simp [hp] at hq
      simp [Dev.inputPorts]
      exact hq
    · simp [hp] at hq

theorem Dev.inout_disjoint (d : Dev) : ∀ p ∈ d.inputPorts, p ∉ d.outputPorts := by
  cases d with
  | constant op v => intro p hp; simp [Dev.inputPorts] at hp
  | sequencer op vs i => intro p hp; simp [Dev.inputPorts] at hp
  | memory data spec =>
    intro p hp
    simp [Dev.inputPorts] at hp
    rcases hp with h | h | h | h <;> simp [h, Dev.outputPorts]
  | cpu =>
    intro p hp
    simp [Dev.inputPorts] at hp
    rcases hp with h | h | h <;> simp [h, Dev.outputPorts]

theorem Dev.inputs_nodup (d : Dev) : d.inputPorts.Nodup := by
  cases d <;> simp [Dev.inputPorts]

theorem Dev.outputs_nodup (d : Dev) : d.outputPorts.Nodup := by
  cases d <;> simp [Dev.outputPorts]

theorem Dev.ports_disjoint (d : Dev) : ∀ p ∈ d.outputPorts, p ∉ d.inputPorts := by
  intro p hp hpi
  exact Dev.inout_disjoint d p hpi hp

theorem Dev.allPorts_nodup (d : Dev) : (d.inputPorts ++ d.outputPorts).Nodup := by
  rw [List.nodup_append]
  exact ⟨Dev.inputs_nodup d, Dev.outputs_nodup d,
    fun p hp hq => Dev.inout_disjoint d p hp hq⟩

theorem containsA_iff {α : Type} [DecidableEq α] (l : List α) (a : α) :
    l.contains a = true ↔ a ∈ l := List.elem_iff

theorem SameShape.refl (d : Dev) : SameShape d d :=
  ⟨rfl, rfl, fun _ => rfl, rfl⟩

theorem SameShape.chain {a b c : Dev} (h1 : SameShape a b) (h2 : SameShape b c) :
    SameShape a c :=
  ⟨h2.1.trans h1.1, h2.2.1.trans h1.2.1,
   fun p => (h2.2.2.1 p).trans (h1.2.2.1 p), h2.2.2.2.trans h1.2.2.2⟩

theorem Dev.provide_ok {d d' : Dev} {p : String} {v : PortValue}
    (h : d.providePortValue p v = .ok d') :
    SameShape d d' ∧ (Dev.wf d → Dev.wf d') ∧ p ∈ d'.provided ∧
      (∀ q ∈ d.provided, q ∈ d'.provided) ∧
      (∀ q ∈ d'.provided, q = p ∨ q ∈ d.provided) ∧
      (∀ q w, d.getPortValue q = .ok (some w) → d'.getPortValue q = .ok (some w)) := by
  cases d with
  | constant op v0 => simp [Dev.providePortValue] at h
  | sequencer op vs i => simp [Dev.providePortValue] at h
  | cpu => simp [Dev.providePortValue] at h
  | memory data spec =>
    by_cases hc : ((spec.map Prod.fst).contains p = true) ∨
        ¬ ((["ra", "we", "wa", "wv"] : List String).contains p = true)
    · simp only [Dev.providePortValue] at h
      rw [if_pos hc] at h
      simp at h
    · simp only [Dev.providePortValue] at h
      rw [if_neg hc] at h
      have hd' : d' = .memory data (insertA spec p v) := by
        cases h
        rfl
      subst hd'
      push_neg at hc
      have hnp : p ∉ spec.map Prod.fst := by
        intro hm
        exact absurd ((containsA_iff _ _).mpr hm) hc.1
      have hkeys : (insertA spec p v).map Prod.fst = spec.map Prod.fst ++ [p] :=
        insertA_map_fst_of_not_mem v hnp
      refine ⟨SameShape.refl _, fun _ => trivial, ?_, ?_, ?_, ?_⟩
      · simp [Dev.provided, hkeys]
      · intro q hq
        simp [Dev.provided, hkeys] at hq ⊢
        exact Or.inl hq
      · intro q hq
        simp [Dev.provided, hkeys] at hq
        rcases hq with hq | hq
        · exact Or.inr (by simp [Dev.provided, hq])
        · exact Or.inl hq
      · intro q w hw
        by_cases hq : q = "rv"
        · subst hq
          simp only [Dev.getPortValue, if_pos rfl] at hw ⊢
          cases hra : lookupA spec "ra" with
          | none => rw [hra] at hw; simp at hw
          | some a =>
            rw [hra] at hw
            have hmem : "ra" ∈ spec.map Prod.fst := by
              rw [← lookupA_isSome_iff]
              simp [hra]
            have hne : "ra" ≠ p := fun hh => hnp (hh ▸ hmem)
            rw [lookupA_insertA_ne spec p "ra" v hne, hra]
            exact hw
        · simp [Dev.getPortValue, hq] at hw

theorem Dev.tick_ok {d d' : Dev} (h : d.tick = .ok d') :
    SameShape d d' ∧ (Dev.wf d → Dev.wf d') := by
  cases d with
  | constant op v =>
    simp [Dev.tick] at h
    subst h
    exact ⟨SameShape.refl _, fun hw => hw⟩
  | sequencer op vs i =>
    simp [Dev.tick] at h
    have hd' : d' = .sequencer op vs (if i + 1 ≥ vs.length then 0 else i + 1) := h.symm
    subst hd'
    refine ⟨⟨rfl, rfl, fun _ => rfl, rfl⟩, ?_⟩
    intro hw
    obtain ⟨hne, hlt⟩ := hw
    have hpos : 0 < vs.length := List.length_pos.mpr hne
    by_cases hge : i + 1 ≥ vs.length
    · simp [Dev.wf, hge]
      exact ⟨hne, hpos⟩
    · simp [Dev.wf, hge]
      exact ⟨hne, by omega⟩
  | memory data spec =>
    simp only [Dev.tick] at h
    cases hm : Memory.tick data spec with
    | none => rw [hm] at h; simp at h
    | some data' =>
      rw [hm] at h
      simp at h
      subst h
      exact ⟨⟨rfl, rfl, fun _ => rfl, rfl⟩, fun _ => trivial⟩
  | cpu => simp [Dev.tick] at h

theorem Dev.resolves {d : Dev} {p : String} (hwf : Dev.wf d) (hp : p ∈ d.outputPorts)
    (hdeps : ∀ q ∈ d.depsOf p, q ∈ d.provided) : ∃ v, d.getPortValue p = .ok (some v) := by
  cases d with
  | constant op v =>
    have hpo : p = op := by simpa [Dev.outputPorts] using hp
    exact ⟨v, by simp [Dev.getPortValue, hpo]⟩
  | sequencer op vs i =>
    have hpo : p = op := by simpa [Dev.outputPorts] using hp
    obtain ⟨hne, hlt⟩ := hwf
    refine ⟨vs.get ⟨i, hlt⟩, ?_⟩
    simp [Dev.getPortValue, hpo, List.get?_eq_get hlt]
  | memory data spec =>
    have hpo : p = "rv" := by simpa [Dev.outputPorts] using hp
    have hra : "ra" ∈ Dev.provided (.memory data spec) := by
      apply hdeps
      simp [Dev.depsOf, Dev.getOutputDependencies, hpo]
    simp only [Dev.provided] at hra
    have hsome : (lookupA spec "ra").isSome = true := (lookupA_isSome_iff spec "ra").mpr hra
    cases hlook : lookupA spec "ra" with
    | none => rw [hlook] at hsome; simp at hsome
    | some a =>
      exact ⟨(lookupA data a).getD 0, by simp [Dev.getPortValue, hpo, hlook]⟩
  | cpu =>
    exfalso
    have hoa : p = "oa" ∨ p = "ob" ∨ p = "oc" := by
      simpa [Dev.outputPorts] using hp
    have hia : "ia" ∈ Dev.provided .cpu := by
      apply hdeps
      rcases hoa with h | h | h <;> simp [Dev.depsOf, Dev.getOutputDependencies, h]
    simp [Dev.provided] at hia

theorem Dev.getPortValue_output_not_err {d : Dev} {p : String} (hp : p ∈ d.outputPorts)
    (hncpu : d.isCpu = false) :
    d.getPortValue p = .err → False := by
  intro h
  cases d with
  | constant op v =>
    have hpo : p = op := by simpa [Dev.outputPorts] using hp
    simp [Dev.getPortValue, hpo] at h
  | sequencer op vs i =>
    have hpo : p = op := by simpa [Dev.outputPorts] using hp
    simp [Dev.getPortValue, hpo] at h
  | memory data spec =>
    have hpo : p = "rv" := by simpa [Dev.outputPorts] using hp
    simp only [Dev.getPortValue, if_pos hpo] at h
    cases hlook : lookupA spec "ra" <;> rw [hlook] at h <;> simp at h
  | cpu => simp [Dev.isCpu] at hncpu

theorem Dev.getPortValue_not_panicked {d : Dev} {p : String} (hncpu : d.isCpu = false) :
    d.getPortValue p = .panicked → False := by
  intro h
  cases d with
  | constant op v => by_cases hpo : p = op <;> simp [Dev.getPortValue, hpo] at h
  | sequencer op vs i => by_cases hpo : p = op <;> simp [Dev.getPortValue, hpo] at h
  | memory data spec =>
    by_cases hpo : p = "rv"
    · simp only [Dev.getPortValue, if_pos hpo] at h
      cases hlook : lookupA spec "ra" <;> rw [hlook] at h <;> simp at h
    · simp [Dev.getPortValue, hpo] at h
  | cpu => simp [Dev.isCpu] at hncpu

theorem Dev.provide_succeeds {d : Dev} {p : String} (v : PortValue) (hp : p ∈ d.inputPorts)
    (hnp : p ∉ d.provided) (hncpu : d.isCpu = false) :
    ∃ d', d.providePortValue p v = .ok d' := by
  cases d with
  | constant op v0 => simp [Dev.inputPorts] at hp
  | sequencer op vs i => simp [Dev.inputPorts] at hp
  | cpu => simp [Dev.isCpu] at hncpu
  | memory data spec =>
    have hc1 : ¬ ((spec.map Prod.fst).contains p = true) := by
      intro hcon
      exact hnp (by simpa [Dev.provided] using (containsA_iff _ _).mp hcon)
    have hc2 : (["ra", "we", "wa", "wv"] : List String).contains p = true := by
      rw [containsA_iff]
      simpa [Dev.inputPorts] using hp
    refine ⟨.memory data (insertA spec p v), ?_⟩
    have hcond : ¬ (((spec.map Prod.fst).contains p = true) ∨
        ¬ ((["ra", "we", "wa", "wv"] : List String).contains p = true)) :=
      fun h => h.elim hc1 (fun hb => hb hc2)
    simp only [Dev.providePortValue]
    rw [if_neg hcond]

/-! ### Characterization of `add_device`'s loops -/

theorem addDeps_spec (id : String) (idx : Nat) :
    ∀ (qs : List String) (c : Controller),
      (addDeps id idx qs c).nodes = c.nodes ∧
      (addDeps id idx qs c).ports = c.ports ∧
      (addDeps id idx qs c).devices = c.devices ∧
      (addDeps id idx qs c).edges =
        c.edges ++ qs.map (fun q => ((lookupA c.ports (id, q)).getD 0, idx, EdgeKind.internal)) := by
  intro qs
  induction qs with
  | nil => intro c; simp [addDeps]
  | cons q qs ih =>
    intro c
    obtain ⟨hn, hp, hd, he⟩ := ih
      { c with edges := c.edges ++ [((lookupA c.ports (id, q)).getD 0, idx, EdgeKind.internal)] }
    refine ⟨hn, hp, hd, ?_⟩
    simp only [addDeps, he]
    simp

theorem addInputs_spec (id : String) :
    ∀ (ps : List String) (c : Controller), ps.Nodup →
      (addInputs id ps c).nodes = c.nodes ++ ps.map (fun p => (id, p)) ∧
      (addInputs id ps c).edges = c.edges ∧
      (addInputs id ps c).devices = c.devices ∧
      (∀ k, (∀ p ∈ ps, k ≠ (id, p)) →
        lookupA (addInputs id ps c).ports k = lookupA c.ports k) ∧
      (∀ p ∈ ps, ∃ j, lookupA (addInputs id ps c).ports (id, p) = some j ∧
        c.nodes.length ≤ j ∧ j < c.nodes.length + ps.length ∧
        (addInputs id ps c).nodes.get? j = some (id, p)) ∧
      (∀ k j, lookupA (addInputs id ps c).ports k = some j →
        lookupA c.ports k = some j ∨
          (c.nodes.length ≤ j ∧ j < c.nodes.length + ps.length ∧
            (addInputs id ps c).nodes.get? j = some k)) := by
  intro ps
  induction ps with
  | nil =>
    intro c _
    refine ⟨by simp [addInputs], rfl, rfl, fun k _ => rfl, by simp, ?_⟩
    intro k j h
    exact Or.inl h
  | cons p ps ih =>
    intro c hnd
    have hnd' : ps.Nodup := (List.nodup_cons.mp hnd).2
    have hpnotin : p ∉ ps := (List.nodup_cons.mp hnd).1
    set c1 : Controller :=
      { c with nodes := c.nodes ++ [(id, p)],
               ports := insertA c.ports (id, p) c.nodes.length } with hc1
    obtain ⟨ihn, ihe, ihd, ihstab, ihmem, ihrev⟩ := ih c1 hnd'
    have hstep : addInputs id (p :: ps) c = addInputs id ps c1 := rfl
    have hc1len : c1.nodes.length = c.nodes.length + 1 := by simp [hc1]
    refine ⟨?_, ?_, ?_, ?_, ?_, ?_⟩
    · rw [hstep, ihn]
      simp [hc1]
    · rw [hstep, ihe]
    · rw [hstep, ihd]
    · intro k hk
      rw [hstep, ihstab k (fun p' hp' => hk p' (List.mem_cons_of_mem p hp'))]
      have hkp : k ≠ (id, p) := hk p (List.mem_cons_self p ps)
      show lookupA (insertA c.ports (id, p) c.nodes.length) k = lookupA c.ports k
      exact lookupA_insertA_ne c.ports (id, p) k c.nodes.length hkp
    · intro q hq
      rcases List.mem_cons.mp hq with hq | hq
      · subst hq
        refine ⟨c.nodes.length, ?_, Nat.le_refl _, by simp, ?_⟩
        · rw [hstep, ihstab (id, q) (fun p' hp' hh => hpnotin (by
            have : q = p' := congrArg Prod.snd hh
            exact this ▸ hp'))]
          show lookupA (insertA c.ports (id, q) c.nodes.length) (id, q) = some c.nodes.length
          exact lookupA_insertA_self c.ports (id, q) c.nodes.length
        · rw [hstep, ihn]
          have : (c1.nodes ++ ps.map (fun p => (id, p))).get? c.nodes.length =
              c1.nodes.get? c.nodes.length := by
            apply List.get?_append
            omega
          rw [this, hc1]
          exact List.get?_concat_length c.nodes (id, q)
      · obtain ⟨j, hj1, hj2, hj3, hj4⟩ := ihmem q hq
        rw [hc1len] at hj2 hj3
        exact ⟨j, hstep ▸ hj1, by omega, by simpa using by omega, hstep ▸ hj4⟩
    · intro k j h
      rw [hstep] at h
      rcases ihrev k j h with hold | ⟨hge, hlt, hget⟩
      · by_cases hkp : k = (id, p)
        · subst hkp
          rw [show lookupA c1.ports (id, p) = some c.nodes.length from
            lookupA_insertA_self c.ports (id, p) c.nodes.length] at hold
          have hj : j = c.nodes.length := by
            have := hold.symm
            simp at this
            omega
          subst hj
          refine Or.inr ⟨Nat.le_refl _, by simp, ?_⟩
          rw [hstep, ihn]
          have hgeq : (c1.nodes ++ ps.map (fun p => (id, p))).get? c.nodes.length =
              c1.nodes.get? c.nodes.length := by
            apply List.get?_append
            omega
          rw [hgeq, hc1]
          exact List.get?_concat_length c.nodes (id, p)
        · rw [show lookupA c1.ports k = lookupA c.ports k from
            lookupA_insertA_ne c.ports (id, p) k c.nodes.length hkp] at hold
          exact Or.inl hold
      · rw [hc1len] at hge hlt
        exact Or.inr ⟨by omega, by simpa using by omega, hstep ▸ hget⟩

theorem get?_append_middle {α : Type} (l : List α) (a : α) (t : List α) :
    (l ++ a :: t).get? l.length = some a := by
  rw [List.get?_append_right (Nat.le_refl _)]
  simp

theorem addOutputs_spec (id : String) (d : Dev) :
    ∀ (ps : List String) (c : Controller) (B : Nat), ps.Nodup →
      (∀ p ∈ ps, ∀ q ∈ d.inputPorts, p ≠ q) →
      (∀ p ∈ ps, ∀ q ∈ d.depsOf p, q ∈ d.inputPorts) →
      B ≤ c.nodes.length →
      (∀ q ∈ d.inputPorts, ∃ j, lookupA c.ports (id, q) = some j ∧ j < B ∧
        c.nodes.get? j = some (id, q)) →
      (addOutputs id d ps c).nodes = c.nodes ++ ps.map (fun p => (id, p)) ∧
      (addOutputs id d ps c).devices = c.devices ∧
      (∀ k, (∀ p ∈ ps, k ≠ (id, p)) →
        lookupA (addOutputs id d ps c).ports k = lookupA c.ports k) ∧
      (∀ k j, lookupA (addOutputs id d ps c).ports k = some j →
        lookupA c.ports k = some j ∨
          (c.nodes.length ≤ j ∧ j < c.nodes.length + ps.length ∧
            (addOutputs id d ps c).nodes.get? j = some k)) ∧
      (∃ F, (addOutputs id d ps c).edges = c.edges ++ F ∧
        ∀ e ∈ F, e.1 < B ∧ c.nodes.length ≤ e.2.1 ∧
          e.2.1 < c.nodes.length + ps.length ∧ e.2.2 = EdgeKind.internal) ∧
      (∀ p ∈ ps, ∃ j, lookupA (addOutputs id d ps c).ports (id, p) = some j ∧
        c.nodes.length ≤ j ∧ j < c.nodes.length + ps.length ∧
        (addOutputs id d ps c).nodes.get? j = some (id, p) ∧
        ∀ q ∈ d.depsOf p, ∃ jq, jq < B ∧
          (addOutputs id d ps c).nodes.get? jq = some (id, q) ∧
          (jq, j, EdgeKind.internal) ∈ (addOutputs id d ps c).edges) := by
  intro ps
  induction ps with
  | nil =>
    intro c B _ _ _ _ _
    refine ⟨by simp [addOutputs], rfl, fun k _ => rfl, fun k j h => Or.inl h,
      ⟨[], by simp [addOutputs], by simp⟩, by simp⟩
  | cons p ps ih =>
    intro c B hnd hdisj hdeps hB hin
    have hnd' : ps.Nodup := (List.nodup_cons.mp hnd).2
    have hpnotin : p ∉ ps := (List.nodup_cons.mp hnd).1
    have hpmem : p ∈ p :: ps := List.mem_cons_self p ps
    set c1 : Controller :=
      { c with nodes := c.nodes ++ [(id, p)],
               ports := insertA c.ports (id, p) c.nodes.length } with hc1
    -- characterize the addDeps step
    obtain ⟨hdn, hdp, hdd, hde⟩ := addDeps_spec id c.nodes.length (d.depsOf p) c1
    set cm : Controller := addOutput id d c p with hcm
    have hcmn : cm.nodes = c.nodes ++ [(id, p)] := hdn
    have hcmp : cm.ports = insertA c.ports (id, p) c.nodes.length := hdp
    have hcmd : cm.devices = c.devices := hdd
    have hcme : cm.edges = c.edges ++ (d.depsOf p).map
        (fun q => ((lookupA c1.ports (id, q)).getD 0, c.nodes.length, EdgeKind.internal)) := hde
    have hcmlen : cm.nodes.length = c.nodes.length + 1 := by
      rw [hcmn]; simp
    -- input-port lookups survive into cm
    have hin' : ∀ q ∈ d.inputPorts, ∃ j, lookupA cm.ports (id, q) = some j ∧ j < B ∧
        cm.nodes.get? j = some (id, q) := by
      intro q hq
      obtain ⟨j, hj1, hj2, hj3⟩ := hin q hq
      have hne : ((id, q) : PortKey) ≠ (id, p) := by
        intro hh
        exact hdisj p hpmem q hq (congrArg Prod.snd hh).symm
      refine ⟨j, ?_, hj2, ?_⟩
      · rw [hcmp, lookupA_insertA_ne c.ports (id, p) (id, q) c.nodes.length hne]
        exact hj1
      · rw [hcmn, List.get?_append (by omega)]
        exact hj3
    have hstep : addOutputs id d (p :: ps) c = addOutputs id d ps cm := rfl
    have hBm : B ≤ cm.nodes.length := by omega
    obtain ⟨ihn, ihd, ihstab, ihrev, ⟨F, ihF, ihFprop⟩, ihmem⟩ :=
      ih cm B hnd' (fun p' hp' => hdisj p' (List.mem_cons_of_mem p hp'))
        (fun p' hp' => hdeps p' (List.mem_cons_of_mem p hp')) hBm hin'
    have hnodes : (addOutputs id d (p :: ps) c).nodes =
        c.nodes ++ (p :: ps).map (fun p => (id, p)) := by
      rw [hstep, ihn, hcmn]
      simp
    -- the dep edges added for p
    have hdepsE : ∀ q ∈ d.depsOf p, ∃ jq, jq < B ∧ c.nodes.get? jq = some (id, q) ∧
        ((lookupA c1.ports (id, q)).getD 0, c.nodes.length, EdgeKind.internal) =
          (jq, c.nodes.length, EdgeKind.internal) := by
      intro q hq
      have hqin : q ∈ d.inputPorts := hdeps p hpmem q hq
      obtain ⟨jq, hj1, hj2, hj3⟩ := hin q hqin
      have hne : ((id, q) : PortKey) ≠ (id, p) := by
        intro hh
        exact hdisj p hpmem q hqin (congrArg Prod.snd hh).symm
      refine ⟨jq, hj2, hj3, ?_⟩
      have hlq : lookupA c1.ports (id, q) = some jq := by
        show lookupA (insertA c.ports (id, p) c.nodes.length) (id, q) = some jq
        rw [lookupA_insertA_ne c.ports (id, p) (id, q) c.nodes.length hne]
        exact hj1
      rw [hlq]
      rfl
    refine ⟨hnodes, ?_, ?_, ?_, ?_, ?_⟩
    · rw [hstep, ihd, hcmd]
    · intro k hk
      rw [hstep, ihstab k (fun p' hp' => hk p' (List.mem_cons_of_mem p hp')), hcmp,
        lookupA_insertA_ne c.ports (id, p) k c.nodes.length (hk p hpmem)]
    · intro k j h
      rw [hstep] at h
      rcases ihrev k j h with hold | ⟨hge, hlt, hget⟩
      · rw [hcmp] at hold
        by_cases hkp : k = (id, p)
        · subst hkp
          rw [lookupA_insertA_self c.ports (id, p) c.nodes.length] at hold
          have hj : j = c.nodes.length := by
            have := hold.symm
            simp at this
            omega
          subst hj
          refine Or.inr ⟨Nat.le_refl _, by simp, ?_⟩
          rw [hnodes]
          exact get?_append_middle c.nodes (id, p) _
        · rw [lookupA_insertA_ne c.ports (id, p) k c.nodes.length hkp] at hold
          exact Or.inl hold
      · rw [hcmlen] at hge hlt
        refine Or.inr ⟨by omega, by simpa using by omega, ?_⟩
        rw [← hstep] at hget
        exact hget
    · refine ⟨(d.depsOf p).map
        (fun q => ((lookupA c1.ports (id, q)).getD 0, c.nodes.length, EdgeKind.internal)) ++ F,
        ?_, ?_⟩
      · rw [hstep, ihF, hcme]
        simp
      · intro e he
        rcases List.mem_append.mp he with he | he
        · obtain ⟨q, hq, heq⟩ := List.mem_map.mp he
          obtain ⟨jq, hjq1, hjq2, hjq3⟩ := hdepsE q hq
          rw [hjq3] at heq
          subst heq
          exact ⟨hjq1, Nat.le_refl _, by simp, rfl⟩
        · obtain ⟨h1, h2, h3, h4⟩ := ihFprop e he
          rw [hcmlen] at h2 h3
          exact ⟨h1, by omega, by simpa using by omega, h4⟩
    · intro p' hp'
      rcases List.mem_cons.mp hp' with hp' | hp'
      · subst hp'
        refine ⟨c.nodes.length, ?_, Nat.le_refl _, by simp, ?_, ?_⟩
        · rw [hstep, ihstab (id, p') (fun p2 hp2 hh => hpnotin (by
            have : p' = p2 := congrArg Prod.snd hh
            exact this ▸ hp2)), hcmp]
          exact lookupA_insertA_self c.ports (id, p') c.nodes.length
        · rw [hnodes]
          exact get?_append_middle c.nodes (id, p') _
        · intro q hq
          obtain ⟨jq, hjq1, hjq2, hjq3⟩ := hdepsE q hq
          refine ⟨jq, hjq1, ?_, ?_⟩
          · rw [hnodes, List.get?_append (by omega)]
            exact hjq2
          · rw [hstep, ihF, hcme]
            apply List.mem_append_left
            apply List.mem_append_right
            rw [← hjq3]
            exact List.mem_map.mpr ⟨q, hq, rfl⟩
      · obtain ⟨j, hj1, hj2, hj3, hj4, hj5⟩ := ihmem p' hp'
        rw [hcmlen] at hj2 hj3
        refine ⟨j, hstep ▸ hj1, by omega, by simpa using by omega, hstep ▸ hj4, ?_⟩
        intro q hq
        obtain ⟨jq, hjq1, hjq2, hjq3⟩ := hj5 q hq
        exact ⟨jq, hjq1, hstep ▸ hjq2, hstep ▸ hjq3⟩

theorem addDevice_spec (c : Controller) (id : String) (d : Dev) :
    (c.addDevice id d).nodes =
      c.nodes ++ (d.inputPorts ++ d.outputPorts).map (fun p => (id, p)) ∧
    (c.addDevice id d).devices = insertA c.devices id d ∧
    (∀ k, (∀ p ∈ d.inputPorts ++ d.outputPorts, k ≠ (id, p)) →
      lookupA (c.addDevice id d).ports k = lookupA c.ports k) ∧
    (∀ k j, lookupA (c.addDevice id d).ports k = some j →
      lookupA c.ports k = some j ∨
        (c.nodes.length ≤ j ∧ j < (c.addDevice id d).nodes.length ∧
          (c.addDevice id d).nodes.get? j = some k)) ∧
    (∃ F, (c.addDevice id d).edges = c.edges ++ F ∧
      ∀ e ∈ F, e.1 < c.nodes.length + d.inputPorts.length ∧
        c.nodes.length + d.inputPorts.length ≤ e.2.1 ∧
        e.2.1 < (c.addDevice id d).nodes.length ∧ e.2.2 = EdgeKind.internal) ∧
    (∀ p ∈ d.inputPorts ++ d.outputPorts, ∃ j,
      lookupA (c.addDevice id d).ports (id, p) = some j ∧
      c.nodes.length ≤ j ∧ j < (c.addDevice id d).nodes.length ∧
      (c.addDevice id d).nodes.get? j = some (id, p)) ∧
    (∀ p ∈ d.outputPorts, ∃ j,
      (c.addDevice id d).nodes.get? j = some ((id, p) : PortKey) ∧
      lookupA (c.addDevice id d).ports (id, p) = some j ∧
      ∀ q ∈ d.depsOf p, ∃ jq, (c.addDevice id d).nodes.get? jq = some ((id, q) : PortKey) ∧
        (jq, j, EdgeKind.internal) ∈ (c.addDevice id d).edges) := by
  obtain ⟨hiN, hiE, hiD, hiStab, hiMem, hiRev⟩ :=
    addInputs_spec id d.inputPorts c (Dev.inputs_nodup d)
  have hcinlen : (addInputs id d.inputPorts c).nodes.length =
      c.nodes.length + d.inputPorts.length := by
    rw [hiN]
    simp
  have hin' : ∀ q ∈ d.inputPorts, ∃ j, lookupA (addInputs id d.inputPorts c).ports (id, q) =
      some j ∧ j < (addInputs id d.inputPorts c).nodes.length ∧
      (addInputs id d.inputPorts c).nodes.get? j = some (id, q) := by
    intro q hq
    obtain ⟨j, h1, h2, h3, h4⟩ := hiMem q hq
    exact ⟨j, h1, by omega, h4⟩
  obtain ⟨hoN, hoD, hoStab, hoRev, ⟨F, hoF, hoFp⟩, hoMem⟩ :=
    addOutputs_spec id d d.outputPorts (addInputs id d.inputPorts c)
      (addInputs id d.inputPorts c).nodes.length (Dev.outputs_nodup d)
      (fun p hp q hq => Dev.ports_disjoint d p hp ∘ fun hh => hh ▸ hq)
      (fun p _ => Dev.deps_subset d p) (Nat.le_refl _) hin'
  have hN : (c.addDevice id d).nodes =
      (addOutputs id d d.outputPorts (addInputs id d.inputPorts c)).nodes := rfl
  have hP : (c.addDevice id d).ports =
      (addOutputs id d d.outputPorts (addInputs id d.inputPorts c)).ports := rfl
  have hE : (c.addDevice id d).edges =
      (addOutputs id d d.outputPorts (addInputs id d.inputPorts c)).edges := rfl
  have hD : (c.addDevice id d).devices =
      insertA (addOutputs id d d.outputPorts (addInputs id d.inputPorts c)).devices id d := rfl
  have hcoutN : (c.addDevice id d).nodes =
      c.nodes ++ (d.inputPorts ++ d.outputPorts).map (fun p => (id, p)) := by
    rw [hN, hoN, hiN]
    simp
  have hfinlen : (c.addDevice id d).nodes.length =
      c.nodes.length + d.inputPorts.length + d.outputPorts.length := by
    rw [hcoutN]
    simp
    omega
  refine ⟨hcoutN, ?_, ?_, ?_, ?_, ?_, ?_⟩
  · rw [hD, hoD, hiD]
  · intro k hk
    rw [hP, hoStab k (fun p hp => hk p (List.mem_append_right _ hp)),
      hiStab k (fun p hp => hk p (List.mem_append_left _ hp))]
  · intro k j h
    rw [hP] at h
    rcases hoRev k j h with hold | ⟨hge, hlt, hget⟩
    · rcases hiRev k j hold with hold2 | ⟨hge2, hlt2, hget2⟩
      · exact Or.inl hold2
      · refine Or.inr ⟨hge2, by omega, ?_⟩
        rw [hN, hoN, List.get?_append (by omega)]
        exact hget2
    · refine Or.inr ⟨by omega, by omega, ?_⟩
      rw [hN]
      exact hget
  · refine ⟨F, ?_, ?_⟩
    · rw [hE, hoF, hiE]
    · intro e he
      obtain ⟨h1, h2, h3, h4⟩ := hoFp e he
      exact ⟨by omega, by omega, by omega, h4⟩
  · intro p hp
    rcases List.mem_append.mp hp with hp | hp
    · obtain ⟨j, h1, h2, h3, h4⟩ := hiMem p hp
      have hstab : lookupA (addOutputs id d d.outputPorts
          (addInputs id d.inputPorts c)).ports (id, p) =
          lookupA (addInputs id d.inputPorts c).ports (id, p) := by
        apply hoStab
        intro o ho hh
        have hpo : p = o := congrArg Prod.snd hh
        exact Dev.inout_disjoint d p hp (hpo ▸ ho)
      refine ⟨j, by rw [hP, hstab]; exact h1, h2, by omega, ?_⟩
      rw [hN, hoN, List.get?_append (by omega)]
      exact h4
    · obtain ⟨j, h1, h2, h3, h4, _⟩ := hoMem p hp
      refine ⟨j, by rw [hP]; exact h1, by omega, by omega, ?_⟩
      rw [hN]
      exact h4
  · intro p hp
    obtain ⟨j, h1, h2, h3, h4, h5⟩ := hoMem p hp
    refine ⟨j, by rw [hN]; exact h4, by rw [hP]; exact h1, ?_⟩
    intro q hq
    obtain ⟨jq, hq1, hq2, hq3⟩ := h5 q hq
    refine ⟨jq, by rw [hN]; exact hq2, by rw [hE]; exact hq3⟩

/-! ### Invariant preservation -/

theorem pairsOf_append (a b : List Edge) : pairsOf (a ++ b) = pairsOf a ++ pairsOf b :=
  List.map_append _ a b

theorem tick_graph_eq (c : Controller) (ord : List Nat) :
    (c.tick ord).2.nodes = c.nodes ∧ (c.tick ord).2.edges = c.edges ∧
      (c.tick ord).2.ports = c.ports := by
  unfold Controller.tick
  by_cases h : hasCycleB c.edges = true
  · simp [h]
  · simp only [Bool.not_eq_true] at h
    simp only [h, Bool.false_eq_true, if_false]
    cases runLoop c.nodes c.edges ord c.devices [] with
    | fail devs r => cases r <;> simp
    | next devs acc =>
      rcases hd : devTicks devs with ⟨devs2, r⟩
      cases r with
      | none => simp [hd]
      | some r0 => cases r0 <;> simp [hd]

theorem addConnection_cases (c : Controller) (fd fp td tp : String) :
    ((c.addConnection fd fp td tp).1 = c ∧ (c.addConnection fd fp td tp).2 ≠ .ok) ∨
    ∃ f t, lookupA c.ports (fd, fp) = some f ∧ lookupA c.ports (td, tp) = some t ∧
      addWouldCycle c.edges f t = false ∧ hasCycleB c.edges = false ∧
      c.addConnection fd fp td tp =
        ({ c with edges := c.edges ++ [(f, t, .external)] }, .ok) := by
  unfold Controller.addConnection
  cases hf : lookupA c.ports (fd, fp) with
  | none => exact Or.inl ⟨rfl, by simp⟩
  | some f =>
    cases ht : lookupA c.ports (td, tp) with
    | none => exact Or.inl ⟨rfl, by simp⟩
    | some t =>
      dsimp only
      by_cases hcy : hasCycleB c.edges = true
      · rw [if_pos hcy]
        exact Or.inl ⟨rfl, by simp⟩
      · rw [if_neg hcy]
        by_cases hwc : addWouldCycle c.edges f t = true
        · rw [if_pos hwc]
          exact Or.inl ⟨rfl, by simp⟩
        · rw [if_neg hwc]
          exact Or.inr ⟨f, t, rfl, rfl, Bool.of_not_eq_true hwc,
            Bool.of_not_eq_true hcy, rfl⟩

theorem inv0_new : Inv0 Controller.new := by
  refine ⟨noCycle_nil, ?_, ?_⟩
  · intro e he
    simp [Controller.new] at he
  · intro k j h
    simp [Controller.new, lookupA] at h

theorem inv0_addDevice {c : Controller} (h : Inv0 c) (id : String) (d : Dev) :
    Inv0 (c.addDevice id d) := by
  obtain ⟨hnc, hbounds, hports⟩ := h
  obtain ⟨hN, _, _, hRev, ⟨F, hF, hFp⟩, _, _⟩ := addDevice_spec c id d
  have hlen : c.nodes.length ≤ (c.addDevice id d).nodes.length := by
    rw [hN]
    simp
  refine ⟨?_, ?_, ?_⟩
  · rw [hF, pairsOf_append]
    apply @noCycle_append_sink _ _ (c.nodes.length + d.inputPorts.length) hnc
    · intro e he
      obtain ⟨e0, he0, heq⟩ := List.mem_map.mp he
      obtain ⟨_, h2, _, _⟩ := hFp e0 he0
      have : e.2 = e0.2.1 := (congrArg Prod.snd heq).symm
      omega
    · intro e he
      rcases List.mem_append.mp he with he | he
      · obtain ⟨e0, he0, heq⟩ := List.mem_map.mp he
        have h1 := (hbounds e0 he0).1
        have : e.1 = e0.1 := (congrArg Prod.fst heq).symm
        omega
      · obtain ⟨e0, he0, heq⟩ := List.mem_map.mp he
        have h1 := (hFp e0 he0).1
        have : e.1 = e0.1 := (congrArg Prod.fst heq).symm
        omega
  · intro e he
    rw [hF] at he
    rcases List.mem_append.mp he with he | he
    · have := hbounds e he
      omega
    · obtain ⟨h1, h2, h3, _⟩ := hFp e he
      have hfin : (c.addDevice id d).nodes.length =
          c.nodes.length + (d.inputPorts.length + d.outputPorts.length) := by
        rw [hN]
        simp
      omega
  · intro k j hkj
    rcases hRev k j hkj with hold | ⟨h1, h2, h3⟩
    · obtain ⟨h1, h2⟩ := hports k j hold
      refine ⟨by omega, ?_⟩
      rw [hN, List.get?_append (by omega)]
      exact h2
    · exact ⟨h2, h3⟩

theorem inv0_addConnection {c : Controller} (h : Inv0 c) (fd fp td tp : String) :
    Inv0 (c.addConnection fd fp td tp).1 := by
  rcases addConnection_cases c fd fp td tp with ⟨heq, _⟩ | ⟨f, t, hf, ht, hwc, _, heq⟩
  · rw [heq]
    exact h
  · obtain ⟨hnc, hbounds, hports⟩ := h
    rw [heq]
    refine ⟨?_, ?_, ?_⟩
    · show NoCycle (pairsOf (c.edges ++ [(f, t, .external)]))
      rw [pairsOf_append]
      apply noCycle_append_single hnc
      apply not_reach_of_reachF_false
      exact hwc
    · intro e he
      rcases List.mem_append.mp he with he | he
      · exact hbounds e he
      · have heq2 : e = (f, t, .external) := List.mem_singleton.mp he
        subst heq2
        exact ⟨(hports _ _ hf).1, (hports _ _ ht).1⟩
    · exact hports

theorem inv0_tick {c : Controller} (h : Inv0 c) (ord : List Nat) :
    Inv0 (c.tick ord).2 := by
  obtain ⟨h1, h2, h3⟩ := tick_graph_eq c ord
  obtain ⟨ha, hb, hc⟩ := h
  exact ⟨by rw [h2]; exact ha, by rw [h2, h1]; exact hb, by rw [h3, h1]; exact hc⟩

theorem inv0_reachable {c : Controller} (h : Reachable c) : Inv0 c := by
  induction h with
  | base => exact inv0_new
  | addDev id i d _ _ ih => exact inv0_addDevice ih id d
  | addConn fd fp td tp _ ih => exact inv0_addConnection ih fd fp td tp
  | tick ord _ ih => exact inv0_tick ih ord

/-! ### Claim C1: the dependency graph is always acyclic -/

/-- C1: for every Controller built by any sequence of `add_device` and
`add_connection` calls starting from `Controller::new()`, the dependency
graph (internal and external edges combined) contains no directed cycle
after every call; and any `add_connection` whose new edge would close a
path from a node back to itself (the target already reaches the source)
returns an error and commits nothing. -/
theorem c1_graph_always_acyclic (c : Controller) (h : Reachable c) :
    NoCycle (pairsOf c.edges) ∧
    ∀ fd fp td tp f t, lookupA c.ports (fd, fp) = some f →
      lookupA c.ports (td, tp) = some t → Reach (pairsOf c.edges) t f →
      c.addConnection fd fp td tp = (c, ConnResult.err) := by
  obtain ⟨hnc, _, _⟩ := inv0_reachable h
  refine ⟨hnc, ?_⟩
  intro fd fp td tp f t hf ht hr
  unfold Controller.addConnection
  rw [hf]
  dsimp only
  rw [ht]
  dsimp only
  have hcy : hasCycleB c.edges = false := (hasCycleB_eq_false_iff c.edges).mpr hnc
  rw [if_neg (by simp [hcy])]
  have hwc : addWouldCycle c.edges f t = true := by
    unfold addWouldCycle
    exact reachF_complete hr
  rw [if_pos hwc]

/-- Witness for C1 at the repository's own cyclic-connection test: wiring
Memory's `rv` output back to its `ra` input is rejected and the
Controller is unchanged. -/
theorem c1_graph_always_acyclic_witness :
    cMemOnly.addConnection "Memory" "rv" "Memory" "ra" = (cMemOnly, ConnResult.err) :=
  (c1_graph_always_acyclic cMemOnly
    (Reachable.addDev "Memory" DevInit.memory (Dev.memory [] []) Reachable.base rfl)).2
    "Memory" "rv" "Memory" "ra" 4 0 (by decide) (by decide)
    (Reach.step (by decide) (Reach.refl 4))

/-! ### Claim C3: failed wiring is all-or-nothing -/

/-- C3: every `add_connection` call that fails with an `Err` (unknown
endpoint or would-create-cycle) leaves the Controller — devices, port
registry, nodes and edges — exactly as it was. -/
theorem c3_failed_connection_state_unchanged (c : Controller) (fd fp td tp : String)
    (h : (c.addConnection fd fp td tp).2 = ConnResult.err) :
    (c.addConnection fd fp td tp).1 = c := by
  rcases addConnection_cases c fd fp td tp with ⟨heq, _⟩ | ⟨f, t, _, _, _, _, heq⟩
  · exact heq
  · rw [heq] at h
    simp at h

/-- Witness for C3: a rejected cyclic connection leaves the Controller
byte-for-byte unchanged. -/
theorem c3_failed_connection_state_unchanged_witness :
    (cMemOnly.addConnection "Memory" "rv" "Memory" "ra").1 = cMemOnly :=
  c3_failed_connection_state_unchanged cMemOnly "Memory" "rv" "Memory" "ra" (by decide)

/-! ### Claim C10: `add_connection` does not check port direction -/

/-- C10: `add_connection` checks only that both endpoints are known and
that no cycle arises — never the ports' directions.  Whenever both ports
resolve and the target does not already reach the source, the call
succeeds and commits the edge, with no hypothesis on whether the "from"
port is an output or the "to" port is an input. -/
theorem c10_no_direction_check (c : Controller) (fd fp td tp : String) (f t : Nat)
    (hnc : NoCycle (pairsOf c.edges))
    (hf : lookupA c.ports (fd, fp) = some f) (ht : lookupA c.ports (td, tp) = some t)
    (hnr : ¬ Reach (pairsOf c.edges) t f) :
    c.addConnection fd fp td tp =
      ({ c with edges := c.edges ++ [(f, t, .external)] }, ConnResult.ok) := by
  unfold Controller.addConnection
  rw [hf]
  dsimp only
  rw [ht]
  dsimp only
  have hcy : hasCycleB c.edges = false := (hasCycleB_eq_false_iff c.edges).mpr hnc
  rw [if_neg (by simp [hcy])]
  have hwc : addWouldCycle c.edges f t = false := by
    unfold addWouldCycle
    by_cases hb : reachF (pairsOf c.edges) (pairsOf c.edges).length t f = true
    · exact absurd (reachF_sound _ _ _ hb) hnr
    · exact Bool.of_not_eq_true hb
  rw [if_neg (by simp [hwc])]

/-- Witness for C10: a wire from Memory's `we` input to its `wa` input —
two input ports — is accepted. -/
theorem c10_no_direction_check_witness :
    cMemOnly.addConnection "Memory" "we" "Memory" "wa" =
      ({ cMemOnly with edges := cMemOnly.edges ++ [(1, 2, .external)] }, ConnResult.ok) :=
  c10_no_direction_check cMemOnly "Memory" "we" "Memory" "wa" 1 2
    ((hasCycleB_eq_false_iff cMemOnly.edges).mp (by decide)) (by decide) (by decide)
    (not_reach_of_reachF_false (by decide))

/-! ### Claim C4: duplicate device registration is not rejected -/

/-- C4 (code evidence): `add_device` returns unit and cannot fail; a second
registration under an already-used identifier silently overwrites the
devices-map entry, repoints the port registry at fresh nodes, and leaves
the first registration's nodes behind as stale weights — it is never
rejected.  The claim (spec §6: "fails if identifier already used") is what
the code should do but does not. -/
theorem c4_duplicate_registration_overwrites :
    lookupA c4Scenario.devices "M" = some (Dev.constant "q" 2) ∧
    c4Scenario.devices = [("M", Dev.constant "q" 2)] ∧
    c4Scenario.nodes = [("M", "q"), ("M", "q")] ∧
    lookupA c4Scenario.ports ("M", "q") = some 1 := by
  decide

/-! ### Claim C8: Memory's tick-time write protocol -/

/-- C8: for every Memory state and per-tick supplied-value set, `tick()`
fails when `we` was not supplied; with nonzero `we` it fails unless both
`wa` and `wv` were supplied and otherwise stores `wv` at `wa`; with zero
`we` it succeeds leaving the data untouched, regardless of the other
write fields. -/
theorem c8_memory_tick_protocol (data : List (PortValue × PortValue))
    (spec : List (String × PortValue)) :
    (lookupA spec "we" = none → Memory.tick data spec = none) ∧
    (∀ w, lookupA spec "we" = some w → w ≠ 0 →
      ((lookupA spec "wa" = none ∨ lookupA spec "wv" = none) →
        Memory.tick data spec = none) ∧
      (∀ a v, lookupA spec "wa" = some a → lookupA spec "wv" = some v →
        Memory.tick data spec = some (insertA data a v))) ∧
    (lookupA spec "we" = some 0 → Memory.tick data spec = some data) := by
  refine ⟨?_, ?_, ?_⟩
  · intro h
    unfold Memory.tick
    rw [h]
  · intro w hw hwz
    constructor
    · intro hmissing
      unfold Memory.tick
      rw [hw]
      dsimp only
      rw [if_pos hwz]
      rcases hmissing with hm | hm
      · rw [hm]
      · rw [hm]
        cases lookupA spec "wa" <;> rfl
    · intro a v ha hv
      unfold Memory.tick
      rw [hw]
      dsimp only
      rw [if_pos hwz, ha, hv]
  · intro h
    unfold Memory.tick
    rw [h]
    simp

/-- Witness for C8: concrete instances of all three behaviours. -/
theorem c8_memory_tick_protocol_witness :
    Memory.tick [] [] = none ∧
    Memory.tick [] [("we", 1)] = none ∧
    Memory.tick [] [("we", 1), ("wa", 0), ("wv", 5)] = some [(0, 5)] ∧
    Memory.tick [(7, 7)] [("we", 0)] = some [(7, 7)] :=
  ⟨(c8_memory_tick_protocol [] []).1 rfl,
   ((c8_memory_tick_protocol [] [("we", 1)]).2.1 1 rfl (by decide)).1 (Or.inl rfl),
   ((c8_memory_tick_protocol [] [("we", 1), ("wa", 0), ("wv", 5)]).2.1 1 rfl
     (by decide)).2 0 5 rfl rfl,
   (c8_memory_tick_protocol [(7, 7)] [("we", 0)]).2.2 rfl⟩

/-! ### Claim C7: the Sequencer cycles through its values -/

theorem sequencer_tickIter (p : String) (vs : List PortValue) :
    ∀ (n i : Nat), i < vs.length →
      tickIter n (.sequencer p vs i) = some (.sequencer p vs ((i + n) % vs.length)) := by
  intro n
  induction n with
  | zero =>
    intro i hi
    simp [tickIter, Nat.mod_eq_of_lt hi]
  | succ n ih =>
    intro i hi
    have hpos : 0 < vs.length := by omega
    show (match (Dev.sequencer p vs i).tick with
      | .ok d' => tickIter n d'
      | _ => none) = _
    simp only [Dev.tick]
    by_cases hge : i + 1 ≥ vs.length
    · rw [if_pos hge]
      rw [ih 0 hpos]
      have hieq : i + 1 = vs.length := by omega
      have : (0 + n) % vs.length = (i + (n + 1)) % vs.length := by
        rw [Nat.zero_add]
        conv_rhs => rw [show i + (n + 1) = vs.length + n by omega]
        rw [Nat.add_mod_left]
      rw [this]
    · rw [if_neg hge]
      rw [ih (i + 1) (by omega)]
      have : (i + 1 + n) % vs.length = (i + (n + 1)) % vs.length := by
        congr 1
        omega
      rw [this]

/-- C7: a Sequencer built by `Sequencer::new` with a non-empty value list
exposes `vs[0]` before any tick, and after `n` successful ticks exposes
`vs[n mod |vs|]` — the cursor wraps past the last element. -/
theorem c7_sequencer_cycles (p : String) (vs : List PortValue) (d0 : Dev)
    (hnew : Sequencer.new p vs = some d0) :
    ∀ n, ∃ d v, tickIter n d0 = some d ∧ vs.get? (n % vs.length) = some v ∧
      d.getPortValue p = .ok (some v) := by
  have hne : ¬ vs.isEmpty = true := by
    intro hh
    simp [Sequencer.new, hh] at hnew
  have hd0 : d0 = .sequencer p vs 0 := by
    simp [Sequencer.new, hne] at hnew
    exact hnew.symm
  subst hd0
  intro n
  have hpos : 0 < vs.length := by
    cases vs with
    | nil => simp at hne
    | cons a l => simp
  have hiter := sequencer_tickIter p vs n 0 hpos
  rw [Nat.zero_add] at hiter
  have hmod : n % vs.length < vs.length := Nat.mod_lt n hpos
  refine ⟨.sequencer p vs (n % vs.length), vs.get ⟨n % vs.length, hmod⟩, hiter, ?_, ?_⟩
  · exact List.get?_eq_get hmod
  · simp [Dev.getPortValue, List.get?_eq_get hmod]

/-- Witness for C7: the `[1,2,3]` Sequencer; the theorem instantiated at
the fifth tick, plus the spec's full nine-tick trace `1,2,3,1,2,3,1,2,3`
checked value by value. -/
theorem c7_sequencer_cycles_witness :
    (∃ d v, tickIter 4 (Dev.sequencer "qq" [1, 2, 3] 0) = some d ∧
      ([1, 2, 3] : List PortValue).get? (4 % 3) = some v ∧
      d.getPortValue "qq" = .ok (some v)) ∧
    ([0, 1, 2, 3, 4, 5, 6, 7, 8].map (fun n =>
      (tickIter n (Dev.sequencer "qq" [1, 2, 3] 0)).map (fun d => d.getPortValue "qq")) =
      [some (.ok (some 1)), some (.ok (some 2)), some (.ok (some 3)),
       some (.ok (some 1)), some (.ok (some 2)), some (.ok (some 3)),
       some (.ok (some 1)), some (.ok (some 2)), some (.ok (some 3))]) :=
  ⟨c7_sequencer_cycles "qq" [1, 2, 3] (Dev.sequencer "qq" [1, 2, 3] 0) rfl 4, by decide⟩

/-! ### Claim C5: input multiplicity is not checked at wiring time -/

/-- C5 (code evidence): with one constant already wired into Memory's
`ra` input, `add_connection` happily accepts a second wire into the same
input — no multiplicity check exists at wiring time — and the violation
surfaces only as the tick loop's multiplicity `panic!`, exactly the
mid-tick discovery the claim says must not happen. -/
theorem c5_second_incoming_edge_not_rejected :
    (c5Scenario.addConnection "K2" "q" "M" "ra").2 = ConnResult.ok ∧
    c5Scenario.nodes.get? 0 = some ("M", "ra") ∧
    incomingSources (c5Scenario.addConnection "K2" "q" "M" "ra").1.edges 0 = [5, 6] ∧
    IsTopo (c5Scenario.addConnection "K2" "q" "M" "ra").1 [5, 6, 0, 1, 2, 3, 4] ∧
    ((c5Scenario.addConnection "K2" "q" "M" "ra").1.tick [5, 6, 0, 1, 2, 3, 4]).1 =
      .panicked .multipleIncoming := by
  decide

/-! ### Claim C6 counterexample: a failed tick is not harmless to retry -/

/-- C6 (counterexample): a Controller whose Memory has `ra` wired from a
constant but `we`, `wa`, `wv` unconnected.  The first tick under the
given topological order returns `Err` as claimed, but the second tick
call — with node 4 (`("M","wv")`) still an input with no incoming edge —
panics at the device's duplicate-supply check (`provideFailed`) instead
of returning an `Err`, because the failed first tick was not rolled
back.  This refutes "every call to tick returns an Err, no matter how
many times tick is attempted". -/
theorem c6_counterexample :
    c6Scenario.nodes.get? 4 = some ("M", "wv") ∧
    lookupA c6Scenario.devices "M" = some (.memory [] []) ∧
    "wv" ∈ (Dev.memory [] []).inputPorts ∧
    incomingSources c6Scenario.edges 4 = [] ∧
    IsTopo c6Scenario c6Order ∧
    (c6Scenario.tick c6Order).1 = .err ∧
    incomingSources (c6Scenario.tick c6Order).2.edges 4 = [] ∧
    IsTopo (c6Scenario.tick c6Order).2 c6Order ∧
    ((c6Scenario.tick c6Order).2.tick c6Order).1 = .panicked .provideFailed := by
  decide

/-! ### Claim C2 counterexample: duplicate registration defeats the output expect -/

/-- C2 (counterexample): register a Constant whose output is named `rv`
under "M", then a Memory under the same "M".  The graph is acyclic and
the controller is reachable by two plain `add_device` calls, yet under
the topological order `[0,…,5]` the tick loop visits the stale node 0
(weight `("M","rv")`), classifies it as an output of the current device
(the Memory), finds its value Unknown — `ra` was never provided — and
dies on the `expect` "Output port should have a known value at this
point in the topological sort". -/
theorem c2_counterexample :
    NoCycle (pairsOf c2Scenario.edges) ∧
    Reachable c2Scenario ∧
    IsTopo c2Scenario c6Order ∧
    (c2Scenario.tick c6Order).1 = .panicked .outputValueUnknown :=
  ⟨(hasCycleB_eq_false_iff _).mp (by decide),
   Reachable.addDev "M" DevInit.memory (Dev.memory [] [])
     (Reachable.addDev "M" (DevInit.constant "rv" 5) (Dev.constant "rv" 5)
       Reachable.base rfl) rfl,
   by decide, by decide⟩

/-! ### Claim C9: the Memory write-then-read scenario -/

/-- C9: one Memory and four Constants wired to `ra=0`, `we=1`, `wa=0`,
`wv=5`.  Under a topological order the first tick succeeds reporting
`rv = 0` (the read resolves against the pre-tick memory state, unwritten
addresses default to 0), after which the memory holds 5 at address 0 with
its per-tick bookkeeping cleared; the second tick succeeds reporting
`rv = 5`. -/
theorem c9_memory_write_read_scenario :
    IsTopo c9Scenario c9Order ∧
    (c9Scenario.tick c9Order).1 =
      .ok [(("RA", "q"), 0), (("WE", "q"), 1), (("WA", "q"), 0), (("WV", "q"), 5),
           (("M", "ra"), 0), (("M", "we"), 1), (("M", "wa"), 0), (("M", "wv"), 5),
           (("M", "rv"), 0)] ∧
    lookupA (c9Scenario.tick c9Order).2.devices "M" = some (.memory [(0, 5)] []) ∧
    ((c9Scenario.tick c9Order).2.tick c9Order).1 =
      .ok [(("RA", "q"), 0), (("WE", "q"), 1), (("WA", "q"), 0), (("WV", "q"), 5),
           (("M", "ra"), 0), (("M", "we"), 1), (("M", "wa"), 0), (("M", "wv"), 5),
           (("M", "rv"), 5)] := by
  decide

/-! ### Device-map evolution through a tick -/

theorem lookupA_isSome_of_keys_eq {β : Type} {a b : List (String × β)}
    (h : a.map Prod.fst = b.map Prod.fst) (id : String) :
    (lookupA a id).isSome = (lookupA b id).isSome := by
  by_cases hm : id ∈ a.map Prod.fst
  · rw [(lookupA_isSome_iff a id).mpr hm, (lookupA_isSome_iff b id).mpr (h ▸ hm)]
  · rw [(lookupA_eq_none_iff a id).mpr hm, (lookupA_eq_none_iff b id).mpr (h ▸ hm)]

theorem devsEvolve_refl (a : List (String × Dev)) : DevsEvolve a a := by
  refine ⟨rfl, ?_⟩
  intro id d d' h1 h2
  rw [h1] at h2
  cases h2
  exact ⟨SameShape.refl d, fun hw => hw⟩

theorem devsEvolve_trans {a b c : List (String × Dev)} (hab : DevsEvolve a b)
    (hbc : DevsEvolve b c) : DevsEvolve a c := by
  refine ⟨hab.1.trans hbc.1, ?_⟩
  intro id d d' h1 h2
  have hsome : (lookupA b id).isSome = true := by
    rw [← lookupA_isSome_of_keys_eq hab.1 id, h1]
    rfl
  cases hm : lookupA b id with
  | none => rw [hm] at hsome; simp at hsome
  | some dm =>
    obtain ⟨hs1, hw1⟩ := hab.2 id d dm h1 hm
    obtain ⟨hs2, hw2⟩ := hbc.2 id dm d' hm h2
    exact ⟨hs1.chain hs2, fun hw => hw2 (hw1 hw)⟩

theorem devsEvolve_insert_provide {devs : List (String × Dev)} {did : String} {dvc d' : Dev}
    {p : String} {v : PortValue} (hlook : lookupA devs did = some dvc)
    (hprov : dvc.providePortValue p v = .ok d') :
    DevsEvolve devs (insertA devs did d') := by
  have hmem : did ∈ devs.map Prod.fst := by
    rw [← lookupA_isSome_iff]
    rw [hlook]
    rfl
  obtain ⟨hshape, hwf, _, _, _, _⟩ := Dev.provide_ok hprov
  refine ⟨(insertA_map_fst_of_mem d' hmem).symm, ?_⟩
  intro id d dx h1 h2
  by_cases hid : id = did
  · subst hid
    rw [hlook] at h1
    cases h1
    rw [lookupA_insertA_self] at h2
    cases h2
    exact ⟨hshape, hwf⟩
  · rw [lookupA_insertA_ne devs did id d' hid] at h2
    rw [h1] at h2
    cases h2
    exact ⟨SameShape.refl d, fun hw => hw⟩

theorem visit_evolve (nodes : List PortKey) (es : List Edge) (devs : List (String × Dev))
    (acc : List (PortKey × PortValue)) (i : Nat) :
    DevsEvolve devs (stepDevs (visit nodes es devs acc i)) := by
  unfold visit
  cases hw : nodes.get? i with
  | none => exact devsEvolve_refl devs
  | some key =>
    obtain ⟨did, pid⟩ := key
    try dsimp only
    cases hd : lookupA devs did with
    | none => exact devsEvolve_refl devs
    | some device =>
      try dsimp only
      by_cases hout : pid ∈ device.outputPorts
      · rw [if_pos hout]
        cases device.getPortValue pid with
        | panicked => exact devsEvolve_refl devs
        | err => exact devsEvolve_refl devs
        | ok o =>
          try dsimp only
          cases o with
          | none => exact devsEvolve_refl devs
          | some v => exact devsEvolve_refl devs
      · rw [if_neg hout]
        by_cases hin : pid ∈ device.inputPorts
        · rw [if_pos hin]
          cases incomingSources es i with
          | nil => exact devsEvolve_refl devs
          | cons j rest =>
            cases rest with
            | cons j2 r2 => exact devsEvolve_refl devs
            | nil =>
              try dsimp only
              cases nodes.get? j with
              | none => exact devsEvolve_refl devs
              | some okey =>
                obtain ⟨odid, opid⟩ := okey
                try dsimp only
                cases lookupA devs odid with
                | none => exact devsEvolve_refl devs
                | some odev =>
                  try dsimp only
                  cases odev.getPortValue opid with
                  | panicked => exact devsEvolve_refl devs
                  | err => exact devsEvolve_refl devs
                  | ok o =>
                    try dsimp only
                    cases o with
                    | none => exact devsEvolve_refl devs
                    | some v =>
                      try dsimp only
                      cases hp : device.providePortValue pid v with
                      | panicked => exact devsEvolve_refl devs
                      | err => exact devsEvolve_refl devs
                      | ok d' => exact devsEvolve_insert_provide hd hp
        · rw [if_neg hin]
          exact devsEvolve_refl devs

theorem runLoop_evolve (nodes : List PortKey) (es : List Edge) :
    ∀ (rest : List Nat) (devs : List (String × Dev)) (acc : List (PortKey × PortValue)),
      DevsEvolve devs (stepDevs (runLoop nodes es rest devs acc)) := by
  intro rest
  induction rest with
  | nil => intro devs acc; exact devsEvolve_refl devs
  | cons i rest ih =>
    intro devs acc
    show DevsEvolve devs (stepDevs (match visit nodes es devs acc i with
      | .next devs' acc' => runLoop nodes es rest devs' acc'
      | .fail devs' r => .fail devs' r))
    have hv := visit_evolve nodes es devs acc i
    cases hvis : visit nodes es devs acc i with
    | next devs' acc' =>
      rw [hvis] at hv
      exact devsEvolve_trans hv (ih devs' acc')
    | fail devs' r =>
      rw [hvis] at hv
      exact hv

theorem devTicks_evolve : ∀ (devs : List (String × Dev)), DevsEvolve devs (devTicks devs).1 := by
  intro devs
  induction devs with
  | nil => exact devsEvolve_refl []
  | cons pr rest ih =>
    obtain ⟨id, d⟩ := pr
    unfold devTicks
    cases ht : d.tick with
    | panicked => exact devsEvolve_refl _
    | err => exact devsEvolve_refl _
    | ok d' =>
      try dsimp only
      obtain ⟨hshape, hwf⟩ := Dev.tick_ok ht
      refine ⟨?_, ?_⟩
      · show id :: rest.map Prod.fst = id :: (devTicks rest).1.map Prod.fst
        rw [ih.1]
      · intro id2 dx dy h1 h2
        by_cases hid : id = id2
        · subst hid
          simp [lookupA] at h1 h2
          cases h1
          cases h2
          exact ⟨hshape, hwf⟩
        · simp [lookupA, hid] at h1 h2
          exact ih.2 id2 dx dy h1 h2

theorem tick_devices_evolve (c : Controller) (ord : List Nat) :
    DevsEvolve c.devices (c.tick ord).2.devices := by
  unfold Controller.tick
  by_cases h : hasCycleB c.edges = true
  · rw [if_pos h]
    exact devsEvolve_refl _
  · rw [if_neg h]
    have hrl := runLoop_evolve c.nodes c.edges ord c.devices []
    cases hres : runLoop c.nodes c.edges ord c.devices [] with
    | fail devs' r =>
      rw [hres] at hrl
      cases r with
      | err => exact hrl
      | panicked t => exact hrl
    | next devs' acc =>
      rw [hres] at hrl
      simp only [stepDevs] at hrl
      have hdt := devTicks_evolve devs'
      rcases hd : devTicks devs' with ⟨devs2, r⟩
      rw [hd] at hdt
      dsimp only at hdt
      dsimp only
      rw [hd]
      cases r with
      | none => exact devsEvolve_trans hrl hdt
      | some r0 => cases r0 <;> exact devsEvolve_trans hrl hdt

/-! ### The fresh-registration invariant -/

theorem get?_lt_length {α : Type} {l : List α} {n : Nat} {a : α} (h : l.get? n = some a) :
    n < l.length := by
  by_cases hn : n < l.length
  · exact hn
  · rw [List.get?_eq_none.mpr (by omega)] at h
    simp at h

theorem DevInit.make_wf {i : DevInit} {d : Dev} (h : i.make = some d) : Dev.wf d := by
  cases i with
  | constant p v => cases h; trivial
  | memory => cases h; trivial
  | cpu => cases h; trivial
  | sequencer p vs =>
    unfold DevInit.make Sequencer.new at h
    dsimp only at h
    by_cases hvs : vs.isEmpty = true
    · rw [if_pos hvs] at h
      simp at h
    · rw [if_neg hvs] at h
      cases h
      refine ⟨?_, ?_⟩
      · intro hnil
        rw [hnil] at hvs
        simp at hvs
      · show 0 < vs.length
        cases vs with
        | nil => simp at hvs
        | cons a l => simp

theorem invF_new : InvF Controller.new := by
  refine ⟨inv0_new, List.nodup_nil, List.nodup_nil, ?_, ?_, ?_⟩
  · intro id dv h
    simp [Controller.new, lookupA] at h
  · intro i id p h
    simp [Controller.new] at h
  · intro i id p dv h
    simp [Controller.new] at h

theorem invF_addDevice {c : Controller} (h : InvF c) (id : String) (d : Dev)
    (hwfd : Dev.wf d) (hfresh : lookupA c.devices id = none) :
    InvF (c.addDevice id d) := by
  obtain ⟨hinv0, hndN, hndD, hwf, hdev, hint⟩ := h
  obtain ⟨hN, hD, hStab, hRev, ⟨F, hF, hFp⟩, hPorts, hOut⟩ := addDevice_spec c id d
  have hdisj : ∀ x ∈ c.nodes, x.1 ≠ id := by
    intro x hx hxid
    obtain ⟨n, hn⟩ := List.get?_of_mem hx
    obtain ⟨dv, hdv⟩ := hdev n x.1 x.2 (by rw [hn])
    rw [hxid, hfresh] at hdv
    simp at hdv
  have hndN' : (c.addDevice id d).nodes.Nodup := by
    rw [hN]
    rw [List.nodup_append]
    refine ⟨hndN, ?_, ?_⟩
    · apply List.Nodup.map
      · intro a b hab
        exact congrArg Prod.snd hab
      · exact Dev.allPorts_nodup d
    · intro x hx hx2
      obtain ⟨p, _, hp⟩ := List.mem_map.mp hx2
      exact hdisj x hx (by rw [← hp])
  refine ⟨inv0_addDevice hinv0 id d, hndN', ?_, ?_, ?_, ?_⟩
  · rw [hD, insertA_map_fst_of_not_mem d ((lookupA_eq_none_iff c.devices id).mp hfresh)]
    rw [List.nodup_append]
    refine ⟨hndD, by simp, ?_⟩
    intro x hx
    simp only [List.mem_singleton]
    intro hxid
    exact (lookupA_eq_none_iff c.devices id).mp hfresh (hxid ▸ hx)
  · intro id2 dv hdv
    rw [hD] at hdv
    by_cases hid : id2 = id
    · subst hid
      rw [lookupA_insertA_self] at hdv
      cases hdv
      exact hwfd
    · rw [lookupA_insertA_ne c.devices id id2 d hid] at hdv
      exact hwf id2 dv hdv
  · intro i id0 p hget
    have hmem : ((id0, p) : PortKey) ∈ (c.addDevice id d).nodes := List.get?_mem hget
    rw [hN] at hmem
    rcases List.mem_append.mp hmem with hold | hnew
    · have hne : id0 ≠ id := hdisj (id0, p) hold
      obtain ⟨n, hn⟩ := List.get?_of_mem hold
      obtain ⟨dv, hdv⟩ := hdev n id0 p hn
      refine ⟨dv, ?_⟩
      rw [hD, lookupA_insertA_ne c.devices id id0 d hne]
      exact hdv
    · obtain ⟨q, _, hq⟩ := List.mem_map.mp hnew
      have hid0 : id = id0 := congrArg Prod.fst hq
      refine ⟨d, ?_⟩
      rw [hD, ← hid0, lookupA_insertA_self]
  · intro i id0 p dv hget hdv hp q hq
    by_cases hi : i < c.nodes.length
    · have hgetold : c.nodes.get? i = some (id0, p) := by
        rw [hN, List.get?_append hi] at hget
        exact hget
      have hne : id0 ≠ id :=
        hdisj (id0, p) (List.get?_mem hgetold)
      rw [hD, lookupA_insertA_ne c.devices id id0 d hne] at hdv
      obtain ⟨j, hj1, hj2⟩ := hint i id0 p dv hgetold hdv hp q hq
      have hjlt : j < c.nodes.length := get?_lt_length hj1
      refine ⟨j, ?_, ?_⟩
      · rw [hN, List.get?_append hjlt]
        exact hj1
      · rw [hF]
        exact List.mem_append_left F hj2
    · have hmem : ((id0, p) : PortKey) ∈
          (d.inputPorts ++ d.outputPorts).map (fun p => (id, p)) := by
        have hmem0 := List.get?_mem hget
        rw [hN] at hmem0
        rcases List.mem_append.mp hmem0 with hold | hnew
        · exfalso
          obtain ⟨n, hn⟩ := List.get?_of_mem hold
          exact hi (by
            have := get?_lt_length hn
            have hlen := get?_lt_length hget
            -- i indexes into the append beyond the prefix; membership in the
            -- prefix is impossible because the weight also sits past it
            exact absurd hold (fun hc => by
              have hne : id0 ≠ id := hdisj (id0, p) hc
              have hgetr : ((d.inputPorts ++ d.outputPorts).map
                  (fun p => (id, p))).get? (i - c.nodes.length) = some (id0, p) := by
                rw [hN, List.get?_append_right (by omega)] at hget
                exact hget
              have := List.get?_mem hgetr
              obtain ⟨q2, _, hq2⟩ := List.mem_map.mp this
              exact hne (congrArg Prod.fst hq2).symm))
        · exact hnew
      have hid0 : id0 = id := by
        obtain ⟨q2, _, hq2⟩ := List.mem_map.mp hmem
        exact (congrArg Prod.fst hq2).symm
      subst hid0
      have hdvd : dv = d := by
        rw [hD, lookupA_insertA_self] at hdv
        cases hdv
        rfl
      subst hdvd
      obtain ⟨j, hj1, _, hj3⟩ := hOut p hp
      have hji : j = i := by
        apply List.get?_inj (get?_lt_length hj1) hndN'
        rw [hj1, hget]
      subst hji
      exact hj3 q hq

theorem invF_addConnection {c : Controller} (h : InvF c) (fd fp td tp : String) :
    InvF (c.addConnection fd fp td tp).1 := by
  rcases addConnection_cases c fd fp td tp with ⟨heq, _⟩ | ⟨f, t, _, _, _, _, heq⟩
  · rw [heq]
    exact h
  · obtain ⟨hinv0, hndN, hndD, hwf, hdev, hint⟩ := h
    rw [heq]
    refine ⟨?_, hndN, hndD, hwf, hdev, ?_⟩
    · have := inv0_addConnection hinv0 fd fp td tp
      rw [heq] at this
      exact this
    · intro i id0 p dv hget hdv hp q hq
      obtain ⟨j, hj1, hj2⟩ := hint i id0 p dv hget hdv hp q hq
      exact ⟨j, hj1, List.mem_append_left _ hj2⟩

theorem invF_tick {c : Controller} (h : InvF c) (ord : List Nat) : InvF (c.tick ord).2 := by
  obtain ⟨hinv0, hndN, hndD, hwf, hdev, hint⟩ := h
  obtain ⟨hgn, hge, hgp⟩ := tick_graph_eq c ord
  have hev := tick_devices_evolve c ord
  refine ⟨inv0_tick hinv0 ord, by rw [hgn]; exact hndN, ?_, ?_, ?_, ?_⟩
  · rw [← hev.1]
    exact hndD
  · intro id dv hdv
    have hsome : (lookupA c.devices id).isSome = true := by
      rw [lookupA_isSome_of_keys_eq hev.1 id, hdv]
      rfl
    cases hold : lookupA c.devices id with
    | none => rw [hold] at hsome; simp at hsome
    | some dv0 =>
      obtain ⟨_, hw⟩ := hev.2 id dv0 dv hold hdv
      exact hw (hwf id dv0 hold)
  · intro i id p hget
    rw [hgn] at hget
    obtain ⟨dv, hdv⟩ := hdev i id p hget
    have hsome : (lookupA (c.tick ord).2.devices id).isSome = true := by
      rw [← lookupA_isSome_of_keys_eq hev.1 id, hdv]
      rfl
    cases hnew : lookupA (c.tick ord).2.devices id with
    | none => rw [hnew] at hsome; simp at hsome
    | some dv' => exact ⟨dv', rfl⟩
  · intro i id0 p dv' hget hdv' hp q hq
    rw [hgn] at hget
    have hsome : (lookupA c.devices id0).isSome = true := by
      rw [lookupA_isSome_of_keys_eq hev.1 id0, hdv']
      rfl
    cases hold : lookupA c.devices id0 with
    | none => rw [hold] at hsome; simp at hsome
    | some dv0 =>
      obtain ⟨hshape, _⟩ := hev.2 id0 dv0 dv' hold hdv'
      have hp0 : p ∈ dv0.outputPorts := by
        rw [← hshape.2.1]
        exact hp
      have hq0 : q ∈ dv0.depsOf p := by
        rw [← hshape.2.2.1 p]
        exact hq
      obtain ⟨j, hj1, hj2⟩ := hint i id0 p dv0 hget hold hp0 q hq0
      rw [hgn, hge]
      exact ⟨j, hj1, hj2⟩

theorem invF_reachableF {c : Controller} (h : ReachableF c) : InvF c := by
  induction h with
  | base => exact invF_new
  | addDev id i d _ hmk hfresh ih => exact invF_addDevice ih id d (DevInit.make_wf hmk) hfresh
  | addConn fd fp td tp _ ih => exact invF_addConnection ih fd fp td tp
  | tick ord _ ih => exact invF_tick ih ord

theorem reachable_of_reachableF {c : Controller} (h : ReachableF c) : Reachable c := by
  induction h with
  | base => exact Reachable.base
  | addDev id i d _ hmk _ ih => exact Reachable.addDev id i d ih hmk
  | addConn fd fp td tp _ ih => exact Reachable.addConn fd fp td tp ih
  | tick ord _ ih => exact Reachable.tick ord ih

/-! ### The tick loop resolves outputs: master lemma -/

theorem device_resolves_at_visit
    {nodes : List PortKey} {es : List Edge} {devs0 devs : List (String × Dev)}
    {pre : List Nat} {m : Nat} {id p : String} {dvc : Dev}
    (hInt : ∀ i id p dv, nodes.get? i = some ((id, p) : PortKey) →
      lookupA devs0 id = some dv → p ∈ dv.outputPorts →
      ∀ q ∈ dv.depsOf p, ∃ j, nodes.get? j = some ((id, q) : PortKey) ∧
        (j, i, EdgeKind.internal) ∈ es)
    (hLI : LoopInv nodes devs0 devs pre)
    (hget : nodes.get? m = some (id, p)) (hdvc : lookupA devs id = some dvc)
    (hp : p ∈ dvc.outputPorts)
    (hpre : ∀ k, (k, m, EdgeKind.internal) ∈ es → k ∈ pre) :
    ∃ v, dvc.getPortValue p = .ok (some v) := by
  obtain ⟨hkeys, hshape, hwf, hprov⟩ := hLI
  obtain ⟨dv0, hdv0, hsh⟩ := hshape id dvc hdvc
  apply Dev.resolves (hwf id dvc hdvc) hp
  intro q hq
  have hp0 : p ∈ dv0.outputPorts := hsh.2.1 ▸ hp
  have hq0 : q ∈ dv0.depsOf p := hsh.2.2.1 p ▸ hq
  obtain ⟨j, hj1, hj2⟩ := hInt m id p dv0 hget hdv0 hp0 q hq0
  exact hprov j (hpre j hj2) id q hj1 dvc hdvc (Dev.deps_subset dvc p q hq)

theorem loopInv_extend_insert
    {nodes : List PortKey} {devs0 devs : List (String × Dev)} {pre : List Nat} {i : Nat}
    {did pid : String} {device d' : Dev} {v : PortValue}
    (hget : nodes.get? i = some (did, pid))
    (hdev : lookupA devs did = some device)
    (hprov : device.providePortValue pid v = .ok d')
    (hLI : LoopInv nodes devs0 devs pre) :
    LoopInv nodes devs0 (insertA devs did d') (pre ++ [i]) := by
  obtain ⟨hkeys, hshape, hwf, hprovvis⟩ := hLI
  obtain ⟨hsh, hw, hmem, hmono, _, _⟩ := Dev.provide_ok hprov
  have hdidmem : did ∈ devs.map Prod.fst := by
    rw [← lookupA_isSome_iff, hdev]
    rfl
  refine ⟨?_, ?_, ?_, ?_⟩
  · rw [insertA_map_fst_of_mem d' hdidmem]
    exact hkeys
  · intro id2 dv2 hdv2
    by_cases hid : id2 = did
    · subst hid
      rw [lookupA_insertA_self] at hdv2
      cases hdv2
      obtain ⟨dv0, hdv0, hsh0⟩ := hshape id2 device hdev
      exact ⟨dv0, hdv0, hsh0.chain hsh⟩
    · rw [lookupA_insertA_ne devs did id2 d' hid] at hdv2
      exact hshape id2 dv2 hdv2
  · intro id2 dv2 hdv2
    by_cases hid : id2 = did
    · subst hid
      rw [lookupA_insertA_self] at hdv2
      cases hdv2
      exact hw (hwf _ device hdev)
    · rw [lookupA_insertA_ne devs did id2 d' hid] at hdv2
      exact hwf id2 dv2 hdv2
  · intro j hj id2 p2 hget2 dv2 hdv2 hp2
    rcases List.mem_append.mp hj with hj | hj
    · by_cases hid : id2 = did
      · subst hid
        rw [lookupA_insertA_self] at hdv2
        cases hdv2
        have hp2' : p2 ∈ device.inputPorts := by
          rw [← hsh.1]
          exact hp2
        exact hmono p2 (hprovvis j hj id2 p2 hget2 device hdev hp2')
      · rw [lookupA_insertA_ne devs did id2 d' hid] at hdv2
        exact hprovvis j hj id2 p2 hget2 dv2 hdv2 hp2
    · have hji : j = i := List.mem_singleton.mp hj
      subst hji
      rw [hget] at hget2
      have hid2 : id2 = did := (congrArg (Prod.fst) (Option.some.inj hget2)).symm
      have hp2id : p2 = pid := (congrArg (Prod.snd) (Option.some.inj hget2)).symm
      subst hid2
      subst hp2id
      rw [lookupA_insertA_self] at hdv2
      cases hdv2
      exact hmem

theorem loopInv_extend_nop
    {nodes : List PortKey} {devs0 devs : List (String × Dev)} {pre : List Nat} {i : Nat}
    {did pid : String} {device : Dev}
    (hget : nodes.get? i = some (did, pid))
    (hdev : lookupA devs did = some device)
    (hnotin : pid ∉ device.inputPorts)
    (hLI : LoopInv nodes devs0 devs pre) :
    LoopInv nodes devs0 devs (pre ++ [i]) := by
  obtain ⟨hkeys, hshape, hwf, hprovvis⟩ := hLI
  refine ⟨hkeys, hshape, hwf, ?_⟩
  intro j hj id2 p2 hget2 dv2 hdv2 hp2
  rcases List.mem_append.mp hj with hj | hj
  · exact hprovvis j hj id2 p2 hget2 dv2 hdv2 hp2
  · exfalso
    have hji : j = i := List.mem_singleton.mp hj
    subst hji
    rw [hget] at hget2
    have hid2 : id2 = did := (congrArg (Prod.fst) (Option.some.inj hget2)).symm
    have hp2id : p2 = pid := (congrArg (Prod.snd) (Option.some.inj hget2)).symm
    subst hid2
    subst hp2id
    rw [hdev] at hdv2
    cases hdv2
    exact hnotin hp2

theorem loopInv_extend_missing
    {nodes : List PortKey} {devs0 devs : List (String × Dev)} {pre : List Nat} {i : Nat}
    (hmiss : (∀ k, nodes.get? i ≠ some k) ∨
      (∃ did pid, nodes.get? i = some ((did, pid) : PortKey) ∧ lookupA devs did = none))
    (hLI : LoopInv nodes devs0 devs pre) :
    LoopInv nodes devs0 devs (pre ++ [i]) := by
  obtain ⟨hkeys, hshape, hwf, hprovvis⟩ := hLI
  refine ⟨hkeys, hshape, hwf, ?_⟩
  intro j hj id2 p2 hget2 dv2 hdv2 hp2
  rcases List.mem_append.mp hj with hj | hj
  · exact hprovvis j hj id2 p2 hget2 dv2 hdv2 hp2
  · exfalso
    have hji : j = i := List.mem_singleton.mp hj
    subst hji
    rcases hmiss with hm | ⟨did, pid, hm1, hm2⟩
    · exact hm _ hget2
    · rw [hm1] at hget2
      have hid2 : id2 = did := (congrArg (Prod.fst) (Option.some.inj hget2)).symm
      subst hid2
      rw [hm2] at hdv2
      simp at hdv2

theorem visit_classify
    {nodes : List PortKey} {es : List Edge} {devs0 devs : List (String × Dev)}
    {pre rest : List Nat} {acc : List (PortKey × PortValue)} {i : Nat} {order : List Nat}
    (hInt : ∀ i id p dv, nodes.get? i = some ((id, p) : PortKey) →
      lookupA devs0 id = some dv → p ∈ dv.outputPorts →
      ∀ q ∈ dv.depsOf p, ∃ j, nodes.get? j = some ((id, q) : PortKey) ∧
        (j, i, EdgeKind.internal) ∈ es)
    (hTopo : ∀ e ∈ es, idxOf order e.1 < idxOf order e.2.1)
    (hNodup : order.Nodup)
    (horder : order = pre ++ i :: rest)
    (hLI : LoopInv nodes devs0 devs pre) :
    (∃ devs' acc', visit nodes es devs acc i = .next devs' acc' ∧
       LoopInv nodes devs0 devs' (pre ++ [i])) ∨
    (∃ r, visit nodes es devs acc i = .fail devs r ∧
       NotOutputExpect (.fail devs r)) := by
  have hpre_of_edge : ∀ k, (k, i, EdgeKind.internal) ∈ es → k ∈ pre := by
    intro k hk
    exact topo_mem_pre hNodup horder (hTopo _ hk)
  unfold visit
  cases hw : nodes.get? i with
  | none => exact Or.inr ⟨_, rfl, trivial⟩
  | some key =>
    obtain ⟨did, pid⟩ := key
    try dsimp only
    cases hd : lookupA devs did with
    | none => exact Or.inr ⟨_, rfl, trivial⟩
    | some device =>
      try dsimp only
      by_cases hout : pid ∈ device.outputPorts
      · rw [if_pos hout]
        obtain ⟨v, hv⟩ := device_resolves_at_visit hInt hLI hw hd hout hpre_of_edge
        rw [hv]
        try dsimp only
        exact Or.inl ⟨devs, insertA acc (did, pid) v, rfl,
          loopInv_extend_nop hw hd (fun hin => Dev.inout_disjoint device pid hin hout) hLI⟩
      · rw [if_neg hout]
        by_cases hin : pid ∈ device.inputPorts
        · rw [if_pos hin]
          cases incomingSources es i with
          | nil => exact Or.inr ⟨_, rfl, trivial⟩
          | cons j rest2 =>
            cases rest2 with
            | cons j2 r2 => exact Or.inr ⟨_, rfl, trivial⟩
            | nil =>
              try dsimp only
              cases nodes.get? j with
              | none => exact Or.inr ⟨_, rfl, trivial⟩
              | some okey =>
                obtain ⟨odid, opid⟩ := okey
                try dsimp only
                cases lookupA devs odid with
                | none => exact Or.inr ⟨_, rfl, trivial⟩
                | some odev =>
                  try dsimp only
                  cases odev.getPortValue opid with
                  | panicked => exact Or.inr ⟨_, rfl, trivial⟩
                  | err => exact Or.inr ⟨_, rfl, trivial⟩
                  | ok o =>
                    try dsimp only
                    cases o with
                    | none => exact Or.inr ⟨_, rfl, trivial⟩
                    | some v =>
                      try dsimp only
                      cases hp : device.providePortValue pid v with
                      | panicked => exact Or.inr ⟨_, rfl, trivial⟩
                      | err => exact Or.inr ⟨_, rfl, trivial⟩
                      | ok d' =>
                        exact Or.inl ⟨insertA devs did d', insertA acc (did, pid) v, rfl,
                          loopInv_extend_insert hw hd hp hLI⟩
        · rw [if_neg hin]
          exact Or.inl ⟨devs, acc, rfl, loopInv_extend_nop hw hd hin hLI⟩

theorem runLoop_no_output_expect
    (nodes : List PortKey) (es : List Edge) (devs0 : List (String × Dev)) (order : List Nat)
    (hInt : ∀ i id p dv, nodes.get? i = some ((id, p) : PortKey) →
      lookupA devs0 id = some dv → p ∈ dv.outputPorts →
      ∀ q ∈ dv.depsOf p, ∃ j, nodes.get? j = some ((id, q) : PortKey) ∧
        (j, i, EdgeKind.internal) ∈ es)
    (hTopo : ∀ e ∈ es, idxOf order e.1 < idxOf order e.2.1)
    (hNodup : order.Nodup) :
    ∀ (rest pre : List Nat) (devs : List (String × Dev)) (acc : List (PortKey × PortValue)),
      order = pre ++ rest → LoopInv nodes devs0 devs pre →
      NotOutputExpect (runLoop nodes es rest devs acc) := by
  intro rest
  induction rest with
  | nil =>
    intro pre devs acc _ _
    trivial
  | cons i rest ih =>
    intro pre devs acc horder hLI
    have horder2 : order = pre ++ i :: rest := horder
    have horder' : order = (pre ++ [i]) ++ rest := by rw [horder]; simp
    show NotOutputExpect (match visit nodes es devs acc i with
      | .next devs' acc' => runLoop nodes es rest devs' acc'
      | .fail devs' r => .fail devs' r)
    rcases visit_classify hInt hTopo hNodup horder2 hLI with
      ⟨devs', acc', hv, hLI'⟩ | ⟨r, hv, hgood⟩
    · rw [hv]
      exact ih (pre ++ [i]) devs' acc' horder' hLI'
    · rw [hv]
      exact hgood

theorem devTicks_panic_tag : ∀ (devs : List (String × Dev)) (t : PanicTag),
    (devTicks devs).2 = some (.panicked t) → t = .deviceTodoAtTick := by
  intro devs
  induction devs with
  | nil =>
    intro t h
    simp [devTicks] at h
  | cons pr rest ih =>
    intro t h
    obtain ⟨id, d⟩ := pr
    unfold devTicks at h
    cases ht : d.tick with
    | panicked =>
      rw [ht] at h
      dsimp only at h
      cases Option.some.inj h
      rfl
    | err =>
      rw [ht] at h
      dsimp only at h
      cases Option.some.inj h
    | ok d' =>
      rw [ht] at h
      dsimp only at h
      exact ih t h

/-- C2 (amended): for every Controller built from `Controller::new()` by
`add_device` calls each using a previously unused identifier, plus any
`add_connection` and tick calls, and for every topological order of its
port nodes, whenever the tick loop visits an output node the device's
port-value query returns a known value — so the tick never ends in the
output-visit branch's fatal `expect` ("Output port should have a known
value at this point in the topological sort"), nor in its `Err`-expect or
a device `todo!()` reached from there. -/
theorem c2_output_expect_unreachable (c : Controller) (h : ReachableF c)
    (ord : List Nat) (htopo : IsTopo c ord) :
    (c.tick ord).1 ≠ TickOutcome.panicked .outputValueUnknown ∧
    (c.tick ord).1 ≠ TickOutcome.panicked .outputValueErr ∧
    (c.tick ord).1 ≠ TickOutcome.panicked .deviceTodoAtOutput := by
  obtain ⟨hinv0, hndN, hndD, hwf, hdev, hint⟩ := invF_reachableF h
  have hnc : hasCycleB c.edges = false := (hasCycleB_eq_false_iff c.edges).mpr hinv0.1
  have hLI0 : LoopInv c.nodes c.devices c.devices [] := by
    refine ⟨rfl, ?_, hwf, ?_⟩
    · intro id dv hdv
      exact ⟨dv, hdv, SameShape.refl dv⟩
    · intro j hj
      simp at hj
  have hmaster := runLoop_no_output_expect c.nodes c.edges c.devices ord hint htopo.2
    (order_nodup htopo) ord [] c.devices [] rfl hLI0
  unfold Controller.tick
  rw [if_neg (by simp [hnc])]
  cases hres : runLoop c.nodes c.edges ord c.devices [] with
  | fail devs' r =>
    rw [hres] at hmaster
    cases r with
    | err => exact ⟨by simp, by simp, by simp⟩
    | panicked t =>
      cases t <;> first
        | exact False.elim hmaster
        | exact ⟨by simp, by simp, by simp⟩
  | next devs' acc =>
    dsimp only
    rcases hdtk : devTicks devs' with ⟨devs2, r⟩
    cases r with
    | none => exact ⟨by simp, by simp, by simp⟩
    | some r0 =>
      cases r0 with
      | err => exact ⟨by simp, by simp, by simp⟩
      | panicked t =>
        have ht : t = .deviceTodoAtTick := devTicks_panic_tag devs' t (by rw [hdtk])
        subst ht
        exact ⟨by simp, by simp, by simp⟩

/-- Witness for the amended C2 at a freshly built single-Memory
controller under the order `[0,1,2,3,4]`. -/
theorem c2_output_expect_unreachable_witness :
    (cMemOnly.tick [0, 1, 2, 3, 4]).1 ≠ TickOutcome.panicked .outputValueUnknown :=
  (c2_output_expect_unreachable cMemOnly
    (ReachableF.addDev "Memory" DevInit.memory (Dev.memory [] []) ReachableF.base rfl rfl)
    [0, 1, 2, 3, 4] (by decide)).1

/-! ### Sound wiring: Bool checks to Prop -/

theorem fresh_prop {c : Controller} (h : freshB c = true) :
    ∀ id dv, lookupA c.devices id = some dv → dv.provided = [] := by
  intro id dv hdv
  have hmem : (id, dv) ∈ c.devices := lookupA_mem hdv
  have := List.all_eq_true.mp h (id, dv) hmem
  simpa using this

theorem soundW_of_bool {c : Controller} (h : soundWiringB c = true) :
    SoundW c.nodes c.edges c.devices := by
  intro i id p dv hget hdv hp
  have hilen : i < c.nodes.length := get?_lt_length hget
  have hall := List.all_eq_true.mp h i (List.mem_range.mpr hilen)
  rw [hget] at hall
  dsimp only at hall
  rw [hdv] at hall
  dsimp only at hall
  rw [if_pos hp] at hall
  rw [Bool.and_eq_true, Bool.and_eq_true] at hall
  obtain ⟨⟨h1, h2⟩, h3⟩ := hall
  refine ⟨by simpa using h1, ?_, ?_⟩
  · intro hcpu
    rw [hcpu] at h2
    simp at h2
    exact h2
  · intro j hj
    have hj3 := List.all_eq_true.mp h3 j hj
    cases hwj : c.nodes.get? j with
    | none =>
      rw [hwj] at hj3
      simp at hj3
    | some keyj =>
      obtain ⟨jd, jp⟩ := keyj
      rw [hwj] at hj3
      dsimp only at hj3
      cases hdvj : lookupA c.devices jd with
      | none =>
        rw [hdvj] at hj3
        simp at hj3
      | some dvj =>
        rw [hdvj] at hj3
        dsimp only at hj3
        rw [Bool.and_eq_true] at hj3
        refine ⟨jd, jp, dvj, rfl, hdvj, by simpa using hj3.1, by simpa using hj3.2⟩

theorem incomingSources_mem {es : List Edge} {i j : Nat} :
    j ∈ incomingSources es i ↔ ∃ k, (j, i, k) ∈ es := by
  unfold incomingSources
  simp only [List.mem_map, List.mem_filter, decide_eq_true_eq]
  constructor
  · rintro ⟨e, ⟨he, hto⟩, hfst⟩
    refine ⟨e.2.2, ?_⟩
    have heq : e = (j, i, e.2.2) := by
      obtain ⟨e1, e2, e3⟩ := e
      simp at hfst hto
      rw [hfst, hto]
    rw [← heq]
    exact he
  · rintro ⟨k, hk⟩
    exact ⟨(j, i, k), ⟨hk, rfl⟩, rfl⟩

theorem visit_classify_B
    {nodes : List PortKey} {es : List Edge} {devs0 devs : List (String × Dev)}
    {pre rest : List Nat} {acc : List (PortKey × PortValue)} {i : Nat} {order : List Nat}
    (hInt : ∀ i id p dv, nodes.get? i = some ((id, p) : PortKey) →
      lookupA devs0 id = some dv → p ∈ dv.outputPorts →
      ∀ q ∈ dv.depsOf p, ∃ j, nodes.get? j = some ((id, q) : PortKey) ∧
        (j, i, EdgeKind.internal) ∈ es)
    (hDev : ∀ i id p, nodes.get? i = some ((id, p) : PortKey) →
      ∃ dv, lookupA devs0 id = some dv)
    (hSound : SoundW nodes es devs0)
    (hNodesND : nodes.Nodup)
    (hTopo : ∀ e ∈ es, idxOf order e.1 < idxOf order e.2.1)
    (hNodup : order.Nodup)
    (horder : order = pre ++ i :: rest)
    (hilen : i < nodes.length)
    (hLIB : LoopInvB nodes devs0 devs pre) :
    (∃ devs' acc', visit nodes es devs acc i = .next devs' acc' ∧
       LoopInvB nodes devs0 devs' (pre ++ [i]) ∧
       (∀ id p dv, nodes.get? i = some ((id, p) : PortKey) → lookupA devs0 id = some dv →
         p ∈ dv.inputPorts → incomingSources es i ≠ [])) ∨
    visit nodes es devs acc i = .fail devs .err := by
  obtain ⟨hLI, hprovSub⟩ := hLIB
  have hinotpre : i ∉ pre := by
    rw [horder] at hNodup
    have hdisj := (List.nodup_append.mp hNodup).2.2
    intro hmem
    exact hdisj hmem (List.mem_cons_self i rest)
  unfold visit
  cases hw : nodes.get? i with
  | none =>
    exfalso
    rw [List.get?_eq_get hilen] at hw
    simp at hw
  | some key =>
    obtain ⟨did, pid⟩ := key
    try dsimp only
    obtain ⟨dv0, hdv0⟩ := hDev i did pid hw
    have hdevsome : (lookupA devs did).isSome = true := by
      rw [lookupA_isSome_of_keys_eq hLI.1 did, hdv0]
      rfl
    cases hd : lookupA devs did with
    | none =>
      rw [hd] at hdevsome
      simp at hdevsome
    | some device =>
      try dsimp only
      obtain ⟨dv0b, hdv0b, hshape⟩ := hLI.2.1 did device hd
      have hdv0eq : dv0b = dv0 := by
        rw [hdv0b] at hdv0
        exact Option.some.inj hdv0
      subst hdv0eq
      by_cases hout : pid ∈ device.outputPorts
      · rw [if_pos hout]
        have hpre_of_edge : ∀ k, (k, i, EdgeKind.internal) ∈ es → k ∈ pre := fun k hk =>
          topo_mem_pre hNodup horder (hTopo _ hk)
        obtain ⟨v, hv⟩ := device_resolves_at_visit hInt hLI hw hd hout hpre_of_edge
        rw [hv]
        try dsimp only
        refine Or.inl ⟨devs, insertA acc (did, pid) v, rfl,
          ⟨loopInv_extend_nop hw hd
            (fun hin => Dev.inout_disjoint device pid hin hout) hLI, ?_⟩, ?_⟩
        · intro id2 dv2 hdv2 p2 hp2
          obtain ⟨j, hj1, hj2⟩ := hprovSub id2 dv2 hdv2 p2 hp2
          exact ⟨j, List.mem_append_left _ hj1, hj2⟩
        · intro id2 p2 dv2 hget2 hdv2 hp2in
          exfalso
          have hpair := Option.some.inj hget2
          have hideq : id2 = did := (congrArg Prod.fst hpair).symm
          have hpeq : p2 = pid := (congrArg Prod.snd hpair).symm
          rw [hideq, hdv0b] at hdv2
          cases hdv2
          have hpin : pid ∈ device.inputPorts := by
            rw [hshape.1, ← hpeq]
            exact hp2in
          exact Dev.inout_disjoint device pid hpin hout
      · rw [if_neg hout]
        by_cases hin : pid ∈ device.inputPorts
        · rw [if_pos hin]
          have hpid0 : pid ∈ dv0b.inputPorts := by
            rw [← hshape.1]
            exact hin
          obtain ⟨hlen1, hcpu0, hup⟩ := hSound i did pid dv0b hw hdv0b hpid0
          cases hinc : incomingSources es i with
          | nil => exact Or.inr rfl
          | cons j rest2 =>
            cases rest2 with
            | cons j2 r2 =>
              exfalso
              rw [hinc] at hlen1
              simp at hlen1
            | nil =>
              try dsimp only
              obtain ⟨jd, jp, dvj0, hwj, hdvj0, hjout0, hjncpu0⟩ :=
                hup j (by rw [hinc]; exact List.mem_singleton.mpr rfl)
              rw [hwj]
              try dsimp only
              have hdvjsome : (lookupA devs jd).isSome = true := by
                rw [lookupA_isSome_of_keys_eq hLI.1 jd, hdvj0]
                rfl
              cases hdvj : lookupA devs jd with
              | none =>
                rw [hdvj] at hdvjsome
                simp at hdvjsome
              | some dvj =>
                try dsimp only
                obtain ⟨dvj0b, hdvj0b, hshj⟩ := hLI.2.1 jd dvj hdvj
                have hdvj0eq : dvj0b = dvj0 := by
                  rw [hdvj0b] at hdvj0
                  exact Option.some.inj hdvj0
                subst hdvj0eq
                have hjout : jp ∈ dvj.outputPorts := by
                  rw [hshj.2.1]
                  exact hjout0
                obtain ⟨k, hedge⟩ := incomingSources_mem.mp (by
                  rw [hinc]
                  exact List.mem_singleton.mpr rfl)
                have hidxji : idxOf order j < idxOf order i := hTopo (j, i, k) hedge
                have hpre_j : ∀ k2, (k2, j, EdgeKind.internal) ∈ es → k2 ∈ pre := by
                  intro k2 hk2
                  have := hTopo _ hk2
                  exact topo_mem_pre hNodup horder (by
                    have h2 : idxOf order k2 < idxOf order j := this
                    omega)
                obtain ⟨vj, hvj⟩ := device_resolves_at_visit hInt hLI hwj hdvj hjout hpre_j
                rw [hvj]
                try dsimp only
                have hncpu_dev : device.isCpu = false := by
                  cases hc0 : dv0b.isCpu with
                  | true =>
                    exfalso
                    rw [hcpu0 hc0] at hinc
                    simp at hinc
                  | false =>
                    rw [hshape.2.2.2]
                    exact hc0
                have hnotprov : pid ∉ device.provided := by
                  intro hmem
                  obtain ⟨j', hj'pre, hj'get⟩ := hprovSub did device hd pid hmem
                  have hj'i : j' = i :=
                    List.get?_inj (get?_lt_length hj'get) hNodesND (by rw [hj'get, hw])
                  subst hj'i
                  exact hinotpre hj'pre
                obtain ⟨d', hd'⟩ := Dev.provide_succeeds vj hin hnotprov hncpu_dev
                rw [hd']
                try dsimp only
                refine Or.inl ⟨insertA devs did d', insertA acc (did, pid) vj, rfl,
                  ⟨loopInv_extend_insert hw hd hd' hLI, ?_⟩, ?_⟩
                · intro id2 dv2 hdv2 p2 hp2
                  by_cases hid2 : id2 = did
                  · subst hid2
                    rw [lookupA_insertA_self] at hdv2
                    cases hdv2
                    obtain ⟨_, _, _, _, hsub, _⟩ := Dev.provide_ok hd'
                    rcases hsub p2 hp2 with hp2eq | hp2old
                    · subst hp2eq
                      exact ⟨i, List.mem_append_right _ (List.mem_singleton.mpr rfl), hw⟩
                    · obtain ⟨j', hj'1, hj'2⟩ := hprovSub id2 device hd p2 hp2old
                      exact ⟨j', List.mem_append_left _ hj'1, hj'2⟩
                  · rw [lookupA_insertA_ne devs did id2 d' hid2] at hdv2
                    obtain ⟨j', hj'1, hj'2⟩ := hprovSub id2 dv2 hdv2 p2 hp2
                    exact ⟨j', List.mem_append_left _ hj'1, hj'2⟩
                · intro id2 p2 dv2 _ _ _
                  simp
        · rw [if_neg hin]
          refine Or.inl ⟨devs, acc, rfl,
            ⟨loopInv_extend_nop hw hd hin hLI, ?_⟩, ?_⟩
          · intro id2 dv2 hdv2 p2 hp2
            obtain ⟨j, hj1, hj2⟩ := hprovSub id2 dv2 hdv2 p2 hp2
            exact ⟨j, List.mem_append_left _ hj1, hj2⟩
          · intro id2 p2 dv2 hget2 hdv2 hp2in
            exfalso
            have hpair := Option.some.inj hget2
            have hideq : id2 = did := (congrArg Prod.fst hpair).symm
            have hpeq : p2 = pid := (congrArg Prod.snd hpair).symm
            rw [hideq, hdv0b] at hdv2
            cases hdv2
            have hpin : pid ∈ device.inputPorts := by
              rw [hshape.1, ← hpeq]
              exact hp2in
            exact hin hpin

theorem runLoop_sound
    (nodes : List PortKey) (es : List Edge) (devs0 : List (String × Dev)) (order : List Nat)
    (hInt : ∀ i id p dv, nodes.get? i = some ((id, p) : PortKey) →
      lookupA devs0 id = some dv → p ∈ dv.outputPorts →
      ∀ q ∈ dv.depsOf p, ∃ j, nodes.get? j = some ((id, q) : PortKey) ∧
        (j, i, EdgeKind.internal) ∈ es)
    (hDev : ∀ i id p, nodes.get? i = some ((id, p) : PortKey) →
      ∃ dv, lookupA devs0 id = some dv)
    (hSound : SoundW nodes es devs0)
    (hNodesND : nodes.Nodup)
    (hTopo : ∀ e ∈ es, idxOf order e.1 < idxOf order e.2.1)
    (hNodup : order.Nodup)
    (hOrdRange : ∀ i ∈ order, i < nodes.length) :
    ∀ (rest pre : List Nat) (devs : List (String × Dev)) (acc : List (PortKey × PortValue)),
      order = pre ++ rest → LoopInvB nodes devs0 devs pre →
      (∃ devs', runLoop nodes es rest devs acc = .fail devs' .err) ∨
      (∃ devs' acc', runLoop nodes es rest devs acc = .next devs' acc' ∧
        ∀ j ∈ rest, ∀ id p dv, nodes.get? j = some ((id, p) : PortKey) →
          lookupA devs0 id = some dv → p ∈ dv.inputPorts → incomingSources es j ≠ []) := by
  intro rest
  induction rest with
  | nil =>
    intro pre devs acc _ _
    right
    exact ⟨devs, acc, rfl, by intro j hj; exact absurd hj (List.not_mem_nil j)⟩
  | cons i rest ih =>
    intro pre devs acc horder hLIB
    have horder2 : order = pre ++ i :: rest := horder
    have horder' : order = (pre ++ [i]) ++ rest := by rw [horder]; simp
    have hilen : i < nodes.length := hOrdRange i (by
      rw [horder]
      exact List.mem_append_right _ (List.mem_cons_self i rest))
    rcases visit_classify_B hInt hDev hSound hNodesND hTopo hNodup horder2 hilen hLIB with
      ⟨devs', acc', hv, hLIB', hClause⟩ | hv
    · have hstep : runLoop nodes es (i :: rest) devs acc =
          runLoop nodes es rest devs' acc' := by
        show (match visit nodes es devs acc i with
          | .next devs2 acc2 => runLoop nodes es rest devs2 acc2
          | .fail devs2 r => .fail devs2 r) = runLoop nodes es rest devs' acc'
        rw [hv]
      rcases ih (pre ++ [i]) devs' acc' horder' hLIB' with
        ⟨devsF, hF⟩ | ⟨devsN, accN, hN, hrest⟩
      · left
        exact ⟨devsF, by rw [hstep]; exact hF⟩
      · right
        refine ⟨devsN, accN, by rw [hstep]; exact hN, ?_⟩
        intro j hj
        rcases List.mem_cons.mp hj with hji | hjr
        · subst hji
          exact hClause
        · exact hrest j hjr
    · left
      refine ⟨devs, ?_⟩
      show (match visit nodes es devs acc i with
        | .next devs2 acc2 => runLoop nodes es rest devs2 acc2
        | .fail devs2 r => .fail devs2 r) = Step.fail devs .err
      rw [hv]

theorem visit_unconnected_input_fails
    {nodes : List PortKey} {es : List Edge} {devs0 devs : List (String × Dev)}
    {acc : List (PortKey × PortValue)} {i0 : Nat} {id p : String} {dv : Dev}
    (hev : DevsEvolve devs0 devs)
    (hi0 : nodes.get? i0 = some ((id, p) : PortKey))
    (hdv : lookupA devs0 id = some dv)
    (hp : p ∈ dv.inputPorts)
    (hno : incomingSources es i0 = []) :
    visit nodes es devs acc i0 = .fail devs .err := by
  unfold visit
  rw [hi0]
  try dsimp only
  have hsome : (lookupA devs id).isSome = true := by
    rw [← lookupA_isSome_of_keys_eq hev.1 id, hdv]
    rfl
  cases hd : lookupA devs id with
  | none =>
    rw [hd] at hsome
    simp at hsome
  | some device =>
    try dsimp only
    have hshape := (hev.2 id dv device hdv hd).1
    have hpin : p ∈ device.inputPorts := by
      rw [hshape.1]
      exact hp
    have hout : p ∉ device.outputPorts := fun ho =>
      Dev.inout_disjoint device p hpin ho
    rw [if_neg hout, if_pos hpin, hno]

theorem runLoop_unconnected_not_next
    {nodes : List PortKey} {es : List Edge} {devs0 : List (String × Dev)}
    {i0 : Nat} {id p : String} {dv : Dev}
    (hi0 : nodes.get? i0 = some ((id, p) : PortKey))
    (hdv : lookupA devs0 id = some dv)
    (hp : p ∈ dv.inputPorts)
    (hno : incomingSources es i0 = []) :
    ∀ (rest : List Nat) (devs : List (String × Dev)) (acc : List (PortKey × PortValue)),
      i0 ∈ rest → DevsEvolve devs0 devs →
      ∀ devs2 acc2, runLoop nodes es rest devs acc ≠ .next devs2 acc2 := by
  intro rest
  induction rest with
  | nil =>
    intro devs acc hmem
    exact absurd hmem (List.not_mem_nil i0)
  | cons i rest ih =>
    intro devs acc hmem hev devs2 acc2 hcontra
    have hrl : runLoop nodes es (i :: rest) devs acc =
        (match visit nodes es devs acc i with
          | .next devsA accA => runLoop nodes es rest devsA accA
          | .fail devsA r => .fail devsA r) := rfl
    rw [hrl] at hcontra
    by_cases hii : i = i0
    · subst hii
      rw [visit_unconnected_input_fails hev hi0 hdv hp hno] at hcontra
      simp at hcontra
    · cases hv : visit nodes es devs acc i with
      | fail devsA r =>
        rw [hv] at hcontra
        simp at hcontra
      | next devsA accA =>
        rw [hv] at hcontra
        dsimp only at hcontra
        have hev' : DevsEvolve devs0 devsA := by
          have h2 := visit_evolve nodes es devs acc i
          rw [hv] at h2
          exact devsEvolve_trans hev h2
        have hmem' : i0 ∈ rest := by
          rcases List.mem_cons.mp hmem with h | h
          · exact absurd h.symm hii
          · exact h
        exact ih devsA accA hmem' hev' devs2 acc2 hcontra

/-- C6 (amended): for every Controller holding a registered device with
an input port whose node has no incoming edge, and every topological
order, the tick cannot succeed; and if the Controller was built from
`Controller::new()` by `add_device` calls each using a previously unused
identifier plus any `add_connection` and tick calls, and the tick is
attempted while no device holds per-tick values (`freshB`, e.g. the
first tick) under sound wiring (`soundWiringB`: every input has at most
one incoming edge, each from an output port of a non-stub device, and no
stub-CPU input wired), it returns the unresolved-input `Err` — not a
panic.  (Without the freshness hypothesis a re-attempted tick can panic
instead: see the counterexample.) -/
theorem c6_unconnected_input_tick_errs (c : Controller)
    (i0 : Nat) (id p : String) (dv : Dev)
    (hi0 : c.nodes.get? i0 = some ((id, p) : PortKey))
    (hdv : lookupA c.devices id = some dv)
    (hp : p ∈ dv.inputPorts)
    (hno : incomingSources c.edges i0 = [])
    (ord : List Nat) (htopo : IsTopo c ord) :
    (∀ acc, (c.tick ord).1 ≠ TickOutcome.ok acc) ∧
    (ReachableF c → freshB c = true → soundWiringB c = true →
      (c.tick ord).1 = TickOutcome.err) := by
  have hi0mem : i0 ∈ ord := (order_mem_iff htopo i0).mpr (get?_lt_length hi0)
  constructor
  · intro acc hok
    unfold Controller.tick at hok
    by_cases hcy : hasCycleB c.edges = true
    · rw [if_pos hcy] at hok
      simp at hok
    · rw [if_neg hcy] at hok
      have hnn := runLoop_unconnected_not_next hi0 hdv hp hno ord c.devices []
        hi0mem (devsEvolve_refl c.devices)
      cases hres : runLoop c.nodes c.edges ord c.devices [] with
      | fail devsF r =>
        rw [hres] at hok
        cases r with
        | err => simp at hok
        | panicked t => simp at hok
      | next devsN accN =>
        exact hnn devsN accN hres
  · intro h hfresh hsound
    obtain ⟨hinv0, hndN, hndD, hwf, hdev, hint⟩ := invF_reachableF h
    have hnc : hasCycleB c.edges = false := (hasCycleB_eq_false_iff c.edges).mpr hinv0.1
    have hLIB0 : LoopInvB c.nodes c.devices c.devices [] := by
      refine ⟨⟨rfl, ?_, hwf, ?_⟩, ?_⟩
      · intro id2 dv2 hdv2
        exact ⟨dv2, hdv2, SameShape.refl dv2⟩
      · intro j hj
        simp at hj
      · intro id2 dv2 hdv2 p2 hp2
        rw [fresh_prop hfresh id2 dv2 hdv2] at hp2
        exact absurd hp2 (List.not_mem_nil p2)
    have hOrdRange : ∀ i ∈ ord, i < c.nodes.length := fun i hi =>
      (order_mem_iff htopo i).mp hi
    have hmaster := runLoop_sound c.nodes c.edges c.devices ord hint hdev
      (soundW_of_bool hsound) hndN htopo.2 (order_nodup htopo) hOrdRange
      ord [] c.devices [] rfl hLIB0
    unfold Controller.tick
    rw [if_neg (by simp [hnc])]
    rcases hmaster with ⟨devsF, hF⟩ | ⟨devsN, accN, hN, hclause⟩
    · rw [hF]
    · exfalso
      exact hclause i0 hi0mem id p dv hi0 hdv hp hno

/-- Witness for the amended C6: the first tick of the one-Memory circuit
whose `("M", "wv")` input node 4 is unconnected does not succeed, and
returns `Err`. -/
theorem c6_unconnected_input_tick_errs_witness :
    (c6Scenario.tick c6Order).1 ≠ TickOutcome.ok [] ∧
    (c6Scenario.tick c6Order).1 = TickOutcome.err := by
  have hmain := c6_unconnected_input_tick_errs c6Scenario 4 "M" "wv" (Dev.memory [] [])
    (by decide) (by decide) (by decide) (by decide) c6Order (by decide)
  exact ⟨hmain.1 [],
    hmain.2
      (ReachableF.addConn "K" "q" "M" "ra"
        (ReachableF.addDev "M" DevInit.memory (Dev.memory [] [])
          (ReachableF.addDev "K" (DevInit.constant "q" 1) (Dev.constant "q" 1)
            ReachableF.base rfl rfl)
          rfl rfl))
      (by decide) (by decide)⟩

end Circuitry
